import Mathlib

/-!
# Verification of the guppy release pipeline core

A shallow embedding, in Lean 4, of the core of the `guppy` self-update
utility (Go), together with proofs and refutations of a fixed list of
claims about it.

The embedding follows the Go sources:

* `pkg/version` (semantic-version parsing and comparison),
* `pkg/checksum` (SHA-256 calculation and verification),
* `pkg/repository` (HTTP-manifest and GitHub release sources),
* `pkg/applier` (atomic binary replacement and archive extraction).

Modelling conventions:

* Go strings are modelled as `List Char` (`GoStr`).  Go compares strings
  byte-wise over their UTF-8 encoding; since UTF-8 is order-preserving on
  code points, comparing `Char` code points gives the same order.
* Go `int` values are modelled as `Int`, with the `strconv.Atoi` 64-bit
  range check made explicit.
* File systems are modelled as association lists from paths to entries;
  I/O primitives that can fail in the real world are driven by explicit
  boolean environments, so each failure point of the code is reachable.
* Cryptographic hashes: SHA-256 is implemented concretely (bytes to
  bytes, faithful to FIPS 180-4 as used by Go's `crypto/sha256`); SHA-1
  and MD5 are parameters of the statements that involve them.
-/

namespace Guppy

/-- Go strings, modelled as lists of characters. -/
abbrev GoStr := List Char

/-! ## `pkg/version`: the Version Comparator

Embeds `version.go`: `Parse`, `Version.String`, `Version.Compare`,
`CompareStrings`, `IsNewer`. -/

/-- Byte-wise lexicographic strict order on Go strings (the order of Go's
built-in `<` on `string`, which compares UTF-8 bytes; identical to
code-point order). -/
def strLtb : GoStr → GoStr → Bool
  | [], [] => false
  | [], _ :: _ => true
  | _ :: _, [] => false
  | a :: as, b :: bs =>
    if a < b then true
    else if b < a then false
    else strLtb as bs

/-- `Version` (version.go): parsed semantic version.  Go's `int` fields are
modelled as `Int`. -/
structure Version where
  Major : Int
  Minor : Int
  Patch : Int
  PreRelease : GoStr
  Build : GoStr
deriving DecidableEq, Repr

/-- `Version.Compare` (version.go): (-1, 0, 1) ordering.  Major, Minor and
Patch compare numerically; an empty pre-release beats a non-empty one; two
non-empty pre-releases compare byte-wise; Build is ignored. -/
def Version.Compare (v other : Version) : Int :=
  if v.Major ≠ other.Major then (if other.Major < v.Major then 1 else -1)
  else if v.Minor ≠ other.Minor then (if other.Minor < v.Minor then 1 else -1)
  else if v.Patch ≠ other.Patch then (if other.Patch < v.Patch then 1 else -1)
  else if v.PreRelease = [] ∧ other.PreRelease ≠ [] then 1
  else if v.PreRelease ≠ [] ∧ other.PreRelease = [] then -1
  else if v.PreRelease ≠ other.PreRelease then (if strLtb other.PreRelease v.PreRelease then 1 else -1)
  else 0

/-! ### Parsing -/

/-- ASCII decimal digit test ('0'..'9'). -/
def isDigitChar (c : Char) : Bool := 48 ≤ c.toNat && c.toNat ≤ 57

/-- Value of a string of decimal digits (most significant first). -/
def digitsVal (s : GoStr) : Nat := s.foldl (fun a c => a * 10 + (c.toNat - 48)) 0

/-- Largest value of Go's 64-bit `int`. -/
def maxInt64 : Nat := 9223372036854775807

/-- Digits-only part of `strconv.Atoi`: requires a non-empty all-digit
string whose value fits below `bound`. -/
def atoiDigits (s : GoStr) (bound : Nat) : Option Nat :=
  if s ≠ [] ∧ s.all isDigitChar then
    (if digitsVal s ≤ bound then some (digitsVal s) else none)
  else none

/-- `strconv.Atoi` (Go standard library, as called by `Parse`): optional
sign, decimal digits, 64-bit range check; any other input is an error. -/
def goAtoi (s : GoStr) : Option Int :=
  match s with
  | [] => none
  | c :: rest =>
    if c = '-' then (atoiDigits rest (maxInt64 + 1)).map (fun n => -Int.ofNat n)
    else if c = '+' then (atoiDigits rest maxInt64).map (fun n => Int.ofNat n)
    else (atoiDigits s maxInt64).map (fun n => Int.ofNat n)

/-- `strings.TrimPrefix(v, "v")` as called by `Parse`: drop one leading 'v'. -/
def trimPrefixV : GoStr → GoStr
  | [] => []
  | c :: rest => if c = 'v' then rest else c :: rest

/-- `Parse` (version.go): strip an optional leading 'v', split off the
"+build" suffix, split off the "-prerelease" suffix, then require exactly
three dot-separated integers. -/
def Parse (s : GoStr) : Option Version :=
  let s1 := trimPrefixV s
  let partsB := s1.splitOn '+'
  let v1 := partsB.headI
  let build := (partsB.drop 1).headI
  let partsP := v1.splitOn '-'
  let v2 := partsP.headI
  let pre := if 1 < partsP.length then List.intercalate ['-'] (partsP.drop 1) else []
  match v2.splitOn '.' with
  | [mj, mn, pt] =>
    match goAtoi mj, goAtoi mn, goAtoi pt with
    | some M, some m, some p => some ⟨M, m, p, pre, build⟩
    | _, _, _ => none
  | _ => none

/-- Decimal rendering of a natural number (digits of `fmt.Sprintf "%d"`). -/
def natToChars (n : Nat) : GoStr :=
  if _h : n < 10 then [Nat.digitChar n]
  else natToChars (n / 10) ++ [Nat.digitChar (n % 10)]
decreasing_by exact Nat.div_lt_self (by omega) (by omega)

/-- Decimal rendering of a Go `int` (`fmt.Sprintf "%d"`). -/
def intToChars (i : Int) : GoStr :=
  if i < 0 then '-' :: natToChars (-i).toNat else natToChars i.toNat

/-- `Version.String` (version.go): "MAJOR.MINOR.PATCH" with optional
"-prerelease" and "+build" suffixes. -/
def Version.toGoString (v : Version) : GoStr :=
  intToChars v.Major ++ '.' :: intToChars v.Minor ++ '.' :: intToChars v.Patch
  ++ (if v.PreRelease = [] then [] else '-' :: v.PreRelease)
  ++ (if v.Build = [] then [] else '+' :: v.Build)

/-- `CompareStrings` (version.go): parse both, propagate errors, compare. -/
def CompareStrings (v1 v2 : GoStr) : Option Int :=
  match Parse v1 with
  | none => none
  | some a =>
    match Parse v2 with
    | none => none
    | some b => some (a.Compare b)

/-- `IsNewer` (version.go): true iff `v1` parses strictly newer than `v2`. -/
def IsNewer (v1 v2 : GoStr) : Option Bool :=
  (CompareStrings v1 v2).map (fun c => decide (0 < c))

/-! ## `path/filepath` (Go standard library, Unix rules)

The archive applier relies on `filepath.Clean`, `filepath.Join` and
`filepath.Dir`; the HTTP repository uses `filepath.Base`.  These are pure
lexical path operations, embedded here for the Unix separator '/'. -/

abbrev Path := GoStr

/-- One element step of `filepath.Clean`: "" and "." are dropped; ".."
backtracks (kept only at the start of a relative path, dropped at the root
of an absolute one); anything else is pushed. -/
def cleanStep (rooted : Bool) (stack : List GoStr) (e : GoStr) : List GoStr :=
  if e = [] ∨ e = ['.'] then stack
  else if e = ['.', '.'] then
    match stack with
    | [] => if rooted then [] else [['.', '.']]
    | top :: rest => if top = ['.', '.'] then ['.', '.'] :: stack else rest
  else e :: stack

/-- `filepath.Clean` (Go standard library, Unix): shortest lexically
equivalent path. -/
def goClean (p : Path) : Path :=
  if p = [] then ['.']
  else
    let rooted := p.headI = '/'
    let parts := ((p.splitOn '/').foldl (cleanStep rooted) []).reverse
    if rooted then
      (if parts = [] then ['/'] else '/' :: List.intercalate ['/'] parts)
    else
      (if parts = [] then ['.'] else List.intercalate ['/'] parts)

/-- `filepath.Join(a, b)` (Go standard library): drop leading empty
elements, join with '/', then `Clean`. -/
def goJoin2 (a b : Path) : Path :=
  if a = [] then (if b = [] then [] else goClean b)
  else goClean (a ++ '/' :: b)

/-- `filepath.Dir` (Go standard library, Unix): everything up to and
including the final '/', `Clean`-ed (`Clean("")` is "."). -/
def goDir (p : Path) : Path := goClean ((p.reverse.dropWhile (· ≠ '/')).reverse)

/-- `filepath.Base` (Go standard library, Unix). -/
def goBase (p : Path) : Path :=
  if p = [] then ['.']
  else
    let q := (p.reverse.dropWhile (· = '/')).reverse
    let r := (q.reverse.takeWhile (· ≠ '/')).reverse
    if r = [] then ['/'] else r

/-! ## `pkg/applier`: archive extraction (archive.go)

Extraction is modelled as the ordered list of file-system write operations
the code performs, plus an optional abort error.  I/O primitives are
assumed to succeed and the archive is given already decoded; the claims
under study concern the path-traversal guard and symlink handling, which
are purely about which writes happen.

* `FsWrite.mkdirAll p m` models `os.MkdirAll(p, m)` for a directory entry.
* `FsWrite.mkdirParents p` models `os.MkdirAll(filepath.Dir(p), 0755)`:
  it creates missing ancestor directories of `p` and nothing else.
* `FsWrite.createFile p m c` models `os.OpenFile(p, O_WRONLY|O_CREATE|
  O_TRUNC, m)` followed by `io.Copy`: `open(2)` ignores file-type bits in
  `m`, so this always produces a regular file, never a symlink.
* `FsWrite.symlink` models `os.Symlink`, the only primitive that could
  create a symlink on disk; the applier never invokes it.
-/

inductive FsWrite where
  | mkdirAll (path : Path) (mode : Nat)
  | mkdirParents (ofPath : Path)
  | createFile (path : Path) (mode : Nat) (content : List Nat)
  | symlink (path : Path) (linkTarget : Path)
deriving DecidableEq, Repr

def FsWrite.isSymlink : FsWrite → Bool
  | .symlink _ _ => true
  | _ => false

/-- The path an operation writes at (for `mkdirParents` the path whose
ancestors are created). -/
def FsWrite.path : FsWrite → Path
  | .mkdirAll p _ => p
  | .mkdirParents p => p
  | .createFile p _ _ => p
  | .symlink p _ => p

inductive ExtractErr where
  | pathTraversal (path : Path)
  | unsupportedFormat (source : Path)
  | decodeError
deriving DecidableEq, Repr

/-- One entry of a zip archive, as seen through Go's `archive/zip` reader:
`isDir` is `FileInfo().IsDir()`, `isSymlink` tells whether the stored Unix
mode bits carry `ModeSymlink`, `mode` are the permission bits passed to
`OpenFile`. -/
structure ZipFile where
  name : Path
  isDir : Bool
  isSymlink : Bool
  mode : Nat
  content : List Nat
deriving DecidableEq, Repr

/-- The zip-slip / path-traversal guard used by both extractors:
`strings.HasPrefix(path, filepath.Clean(dest) + "/")`. -/
def pathOk (dest path : Path) : Bool := (goClean dest ++ ['/']).isPrefixOf path

/-- Writes performed for one zip entry that passed the guard
(archive.go, `extractZip` body and `extractZipFile`). -/
def zipEntryWrites (dest : Path) (f : ZipFile) : List FsWrite :=
  let path := goJoin2 dest f.name
  if f.isDir then [.mkdirAll path f.mode]
  else [.mkdirParents path, .createFile path f.mode f.content]

/-- `extractZip` (archive.go): per entry, join the name to the
destination, reject unless the cleaned destination plus '/' is a prefix,
then create the directory or stream the file. -/
def extractZip (dest : Path) : List ZipFile → List FsWrite × Option ExtractErr
  | [] => ([], none)
  | f :: fs =>
    let path := goJoin2 dest f.name
    if pathOk dest path then
      let rest := extractZip dest fs
      (zipEntryWrites dest f ++ rest.1, rest.2)
    else ([], some (.pathTraversal path))

/-- One entry of a tar archive (`archive/tar` header). -/
structure TarEntry where
  name : Path
  typeflag : Nat
  mode : Nat
  content : List Nat
deriving DecidableEq, Repr

/-- `tar.TypeReg` = '0'. -/
def tarTypeReg : Nat := 48

/-- `tar.TypeSymlink` = '2'. -/
def tarTypeSymlink : Nat := 50

/-- `tar.TypeDir` = '5'. -/
def tarTypeDir : Nat := 53

/-- Writes performed for one tar entry that passed the guard
(archive.go, `extractTarGz` switch): directories and regular files are
materialised, every other type — symlinks included — is skipped. -/
def tarEntryWrites (dest : Path) (e : TarEntry) : List FsWrite :=
  let path := goJoin2 dest e.name
  if e.typeflag = tarTypeDir then [.mkdirAll path e.mode]
  else if e.typeflag = tarTypeReg then [.mkdirParents path, .createFile path e.mode e.content]
  else []

/-- `extractTarGz` (archive.go), with the gzip/tar stream already decoded
into its list of headers. -/
def extractTarGz (dest : Path) : List TarEntry → List FsWrite × Option ExtractErr
  | [] => ([], none)
  | e :: es =>
    let path := goJoin2 dest e.name
    if pathOk dest path then
      let rest := extractTarGz dest es
      (tarEntryWrites dest e ++ rest.1, rest.2)
    else ([], some (.pathTraversal path))

/-- `ArchiveApplier` (archive.go). -/
structure ArchiveApplier where
  ExtractPath : Path
deriving DecidableEq, Repr

/-- A decoded archive: the source file's content as seen by the matching
reader. -/
inductive ArchiveContent where
  | zip (files : List ZipFile)
  | targz (entries : List TarEntry)
deriving DecidableEq, Repr

/-- `ArchiveApplier.Apply` (archive.go): pick the extraction root, then
dispatch on the source file name's suffix.  Opening the source with the
wrong reader is a decode error. -/
def ArchiveApplier.Apply (a : ArchiveApplier) (sourceName : Path) (content : ArchiveContent)
    (target : Path) : List FsWrite × Option ExtractErr :=
  let extractPath := if a.ExtractPath = [] then goDir target else a.ExtractPath
  if (".zip".data).isSuffixOf sourceName then
    match content with
    | .zip fs => extractZip extractPath fs
    | .targz _ => ([], some .decodeError)
  else if (".tar.gz".data).isSuffixOf sourceName || (".tgz".data).isSuffixOf sourceName then
    match content with
    | .targz es => extractTarGz extractPath es
    | .zip _ => ([], some .decodeError)
  else ([], some (.unsupportedFormat sourceName))

/-! ## An association-list file system, and `pkg/applier`: binary replace

`binary.go` is a straight-line sequence of I/O calls; each call that can
fail is driven by a boolean in `BinEnv`, so every failure point of the
code corresponds to an environment. -/

/-- A file-system entry: content bytes, permission bits, directory flag,
readability (permission to open). -/
structure FsEntry where
  content : List Nat
  mode : Nat
  isDir : Bool
  readable : Bool
deriving DecidableEq, Repr

abbrev FsMap := List (Path × FsEntry)

def fsGet : FsMap → Path → Option FsEntry
  | [], _ => none
  | (k, v) :: m, q => if q = k then some v else fsGet m q

def fsSet (m : FsMap) (k : Path) (v : FsEntry) : FsMap := (k, v) :: m

def fsErase (m : FsMap) (k : Path) : FsMap := m.filter (fun kv => kv.1 != k)

/-- `os.Chmod(k, 0755)` on the model. -/
def chmod755 (m : FsMap) (k : Path) : FsMap :=
  match fsGet m k with
  | none => m
  | some v => fsSet (fsErase m k) k ⟨v.content, 493, v.isDir, v.readable⟩

/-- Environment of failure switches for one `BinaryApplier.Apply` run;
`partialBytes` is whatever had been streamed when a copy fails. -/
structure BinEnv where
  openOk : Bool
  statOk : Bool
  createTmpOk : Bool
  copyOk : Bool
  removeOk : Bool
  renameOk : Bool
  chmodOk : Bool
  partialBytes : List Nat
deriving DecidableEq, Repr

inductive BinErr where
  | openSource
  | statSource
  | createTemp
  | copyFile
  | removeTarget
  | renameTemp
  | chmodTarget
deriving DecidableEq, Repr

/-- `target + ".tmp"`. -/
def tmpSuffix : Path := ".tmp".data

/-- `BinaryApplier.Apply` (binary.go), step by step:
open+stat source; create `target+".tmp"` truncated; `io.Copy` (removing
the temp on failure — a directory source fails here with EISDIR); if the
target exists, remove it (removing the temp on failure); rename the temp
onto the target (no cleanup on failure); force mode 0755.  Reading the
source content at open time is faithful as long as the source is not the
temp path itself. -/
def binaryApply (e : BinEnv) (fs : FsMap) (source target : Path) : FsMap × Option BinErr :=
  let tmp := target ++ tmpSuffix
  match fsGet fs source with
  | none => (fs, some .openSource)
  | some src =>
    if !e.openOk || !src.readable then (fs, some .openSource)
    else if !e.statOk then (fs, some .statSource)
    else if !e.createTmpOk then (fs, some .createTemp)
    else if !e.copyOk || src.isDir then
      (fsErase (fsSet fs tmp ⟨e.partialBytes, src.mode, false, true⟩) tmp, some .copyFile)
    else
      let fs1 := fsSet fs tmp ⟨src.content, src.mode, false, true⟩
      match fsGet fs1 target with
      | some _ =>
        if !e.removeOk then (fsErase fs1 tmp, some .removeTarget)
        else
          let fs2 := fsErase fs1 target
          if !e.renameOk then (fs2, some .renameTemp)
          else
            let fs3 := fsSet (fsErase fs2 tmp) target ⟨src.content, src.mode, false, true⟩
            if !e.chmodOk then (fs3, some .chmodTarget)
            else (chmod755 fs3 target, none)
      | none =>
        if !e.renameOk then (fs1, some .renameTemp)
        else
          let fs3 := fsSet (fsErase fs1 tmp) target ⟨src.content, src.mode, false, true⟩
          if !e.chmodOk then (fs3, some .chmodTarget)
          else (chmod755 fs3 target, none)

/-! ## SHA-256 (FIPS 180-4, as Go's `crypto/sha256` computes it)

Words are `Nat`s reduced mod 2^32.  The round constants are derived from
their definition (fractional parts of cube/square roots of the first
primes), so the table cannot be mistyped. -/

/-- Binary-search integer cube root (largest `x` with `x^3 ≤ n`). -/
def icbrtGo (n : Nat) : Nat → Nat → Nat → Nat
  | lo, _, 0 => lo
  | lo, hi, fuel + 1 =>
    if hi ≤ lo + 1 then lo
    else
      let mid := (lo + hi) / 2
      if mid ^ 3 ≤ n then icbrtGo n mid hi fuel else icbrtGo n lo mid fuel

def icbrt (n : Nat) : Nat := icbrtGo n 0 (n + 1) 200

/-- The first 64 primes. -/
def primes64 : List Nat :=
  [2, 3, 5, 7, 11, 13, 17, 19, 23, 29, 31, 37, 41, 43, 47, 53,
   59, 61, 67, 71, 73, 79, 83, 89, 97, 101, 103, 107, 109, 113, 127, 131,
   137, 139, 149, 151, 157, 163, 167, 173, 179, 181, 191, 193, 197, 199, 211, 223,
   227, 229, 233, 239, 241, 251, 257, 263, 269, 271, 277, 281, 283, 293, 307, 311]

/-- First 32 fractional bits of the cube root of `p`. -/
def frac32cbrt (p : Nat) : Nat := icbrt (p * 2 ^ 96) % 2 ^ 32

/-- First 32 fractional bits of the square root of `p`. -/
def frac32sqrt (p : Nat) : Nat := Nat.sqrt (p * 2 ^ 64) % 2 ^ 32

/-- The SHA-256 round constants K. -/
def sha256K : List Nat := primes64.map frac32cbrt

/-- The SHA-256 initial hash state H0. -/
def sha256H0 : List Nat := (primes64.take 8).map frac32sqrt

/-- Rotate a 32-bit word right by `n`. -/
def rotr32 (n x : Nat) : Nat := x / 2 ^ n + (x % 2 ^ n) * 2 ^ (32 - n)

def smallSigma0 (x : Nat) : Nat := (rotr32 7 x) ^^^ (rotr32 18 x) ^^^ (x / 2 ^ 3)

def smallSigma1 (x : Nat) : Nat := (rotr32 17 x) ^^^ (rotr32 19 x) ^^^ (x / 2 ^ 10)

def bigSigma0 (x : Nat) : Nat := (rotr32 2 x) ^^^ (rotr32 13 x) ^^^ (rotr32 22 x)

def bigSigma1 (x : Nat) : Nat := (rotr32 6 x) ^^^ (rotr32 11 x) ^^^ (rotr32 25 x)

/-- Big-endian 4-byte words from a byte list (length a multiple of 4). -/
def bytesToWords : List Nat → List Nat
  | b0 :: b1 :: b2 :: b3 :: rest => (((b0 * 256 + b1) * 256 + b2) * 256 + b3) :: bytesToWords rest
  | _ => []

def wordToBytes (w : Nat) : List Nat :=
  [w / 2 ^ 24 % 256, w / 2 ^ 16 % 256, w / 2 ^ 8 % 256, w % 256]

/-- SHA-256 padding: 0x80, zeros to 56 mod 64, 8-byte big-endian bit length. -/
def sha256pad (msg : List Nat) : List Nat :=
  let L := msg.length
  let k := (119 - L % 64) % 64
  let bits := 8 * L
  msg ++ 128 :: List.replicate k 0 ++
    [bits / 2 ^ 56 % 256, bits / 2 ^ 48 % 256, bits / 2 ^ 40 % 256, bits / 2 ^ 32 % 256,
     bits / 2 ^ 24 % 256, bits / 2 ^ 16 % 256, bits / 2 ^ 8 % 256, bits % 256]

/-- One extension step of the message schedule. -/
def stepW (w : List Nat) : List Nat :=
  let n := w.length
  w ++ [(smallSigma1 (w.getD (n - 2) 0) + w.getD (n - 7) 0 +
    smallSigma0 (w.getD (n - 15) 0) + w.getD (n - 16) 0) % 2 ^ 32]

/-- The 64-word message schedule from the 16 chunk words. -/
def sha256schedule (w16 : List Nat) : List Nat := (List.range 48).foldl (fun w _ => stepW w) w16

/-- One compression round. -/
def sha256round (st : List Nat) (k w : Nat) : List Nat :=
  match st with
  | [a, b, c, d, e, f, g, h] =>
    let s1 := bigSigma1 e
    let ch := (e &&& f) ^^^ ((4294967295 - e) &&& g)
    let t1 := (h + s1 + ch + k + w) % 2 ^ 32
    let s0 := bigSigma0 a
    let mj := (a &&& b) ^^^ (a &&& c) ^^^ (b &&& c)
    let t2 := (s0 + mj) % 2 ^ 32
    [(t1 + t2) % 2 ^ 32, a, b, c, (d + t1) % 2 ^ 32, e, f, g]
  | st => st

/-- Compress one 64-byte chunk into the hash state. -/
def sha256chunk (h8 : List Nat) (chunk : List Nat) : List Nat :=
  let w := sha256schedule (bytesToWords chunk)
  let st := (sha256K.zip w).foldl (fun st kw => sha256round st kw.1 kw.2) h8
  (h8.zip st).map (fun hv => (hv.1 + hv.2) % 2 ^ 32)

/-- The 64-byte chunks of a padded message (its length is a multiple of 64). -/
def chunks64 (l : List Nat) : List (List Nat) :=
  (List.range (l.length / 64)).map (fun i => (l.drop (64 * i)).take 64)

/-- SHA-256 of a byte list, as a 32-byte list. -/
def sha256Bytes (msg : List Nat) : List Nat :=
  ((chunks64 (sha256pad msg)).foldl sha256chunk sha256H0).flatMap wordToBytes

/-! ## `pkg/checksum` (checksum.go) -/

/-- `hex.EncodeToString` (Go standard library): lowercase hex, high nibble
first. -/
def hexEncode (bs : List Nat) : GoStr :=
  bs.flatMap (fun b => [Nat.digitChar (b / 16 % 16), Nat.digitChar (b % 16)])

/-- Go `unicode.IsSpace`: the White_Space code points. -/
def isSpaceGo (c : Char) : Bool :=
  c.toNat = 9 || c.toNat = 10 || c.toNat = 11 || c.toNat = 12 || c.toNat = 13 ||
  c.toNat = 32 || c.toNat = 133 || c.toNat = 160 || c.toNat = 5760 ||
  (8192 ≤ c.toNat && c.toNat ≤ 8202) || c.toNat = 8232 || c.toNat = 8233 ||
  c.toNat = 8239 || c.toNat = 8287 || c.toNat = 12288

/-- `strings.TrimSpace`. -/
def trimSpace (s : GoStr) : GoStr :=
  ((s.dropWhile isSpaceGo).reverse.dropWhile isSpaceGo).reverse

/-- `strings.ToLower`, restricted to ASCII; Go lowercases all of Unicode,
which coincides on the hex-digest strings this code handles. -/
def toLowerChar (c : Char) : Char :=
  if 65 ≤ c.toNat ∧ c.toNat ≤ 90 then Char.ofNat (c.toNat + 32) else c

def toLowerStr (s : GoStr) : GoStr := s.map toLowerChar

inductive IOErr where
  | openFailed
  | readFailed
deriving DecidableEq, Repr

/-- `VerifySHA256` (checksum.go): stream the file through SHA-256, then
compare case-insensitively with the whitespace-trimmed expected value; a
mismatch is `(false, nil)`, only open/read failures are errors. -/
def VerifySHA256 (fs : FsMap) (path : Path) (expected : GoStr) : Except IOErr Bool :=
  match fsGet fs path with
  | none => .error .openFailed
  | some e =>
    if !e.readable then .error .openFailed
    else if e.isDir then .error .readFailed
    else
      .ok (toLowerStr (hexEncode (sha256Bytes e.content)) == toLowerStr (trimSpace expected))

/-- `CalculateSHA256` (checksum.go). -/
def CalculateSHA256 (fs : FsMap) (path : Path) : Except IOErr GoStr :=
  match fsGet fs path with
  | none => .error .openFailed
  | some e =>
    if !e.readable then .error .openFailed
    else if e.isDir then .error .readFailed
    else .ok (hexEncode (sha256Bytes e.content))

/-! ### `verifyChecksum` (pkg/repository/http.go)

The Go method hashes the file with the library hash named by the
`algorithm:` prefix and compares `hex.EncodeToString` output against the
rest of the checksum string with `!=`.  The three library hash functions
are abstracted as a `Hashers` parameter (the sha256 field is realised by
`sha256Bytes` above); every theorem below holds for all instantiations,
in particular the real one, because the compared property lives entirely
in the string handling. -/

structure Hashers where
  hsha256 : List Nat → List Nat
  hsha1 : List Nat → List Nat
  hmd5 : List Nat → List Nat

inductive VerifyErr where
  | openFailed
  | invalidFormat
  | readFailed
  | mismatch
  | unsupportedAlgorithm
deriving DecidableEq, Repr

/-- The `for i, c := range checksum` loop of verifyChecksum: the first
`':'` splits the string; when none occurs both parts stay empty. -/
def splitColon (s : GoStr) : GoStr × GoStr :=
  if ':' ∈ s then
    (s.takeWhile (fun c => c != ':'), ((s.dropWhile (fun c => c != ':')).tail))
  else ([], [])

def verifyChecksum (H : Hashers) (fs : FsMap) (filePath : Path) (checksum : GoStr) :
    Option VerifyErr :=
  match fsGet fs filePath with
  | none => some .openFailed
  | some e =>
    if !e.readable then some .openFailed
    else
      let algorithm := (splitColon checksum).1
      let expectedHash := (splitColon checksum).2
      if algorithm = [] ∨ expectedHash = [] then some .invalidFormat
      else if algorithm = "sha256".data then
        if e.isDir then some .readFailed
        else if hexEncode (H.hsha256 e.content) != expectedHash then some .mismatch
        else none
      else if algorithm = "sha1".data then
        if e.isDir then some .readFailed
        else if hexEncode (H.hsha1 e.content) != expectedHash then some .mismatch
        else none
      else if algorithm = "md5".data then
        if e.isDir then some .readFailed
        else if hexEncode (H.hmd5 e.content) != expectedHash then some .mismatch
        else none
      else some .unsupportedAlgorithm

/-! ### Strict order induced by `Version.Compare`

`preLt p q` says pre-release string `p` sorts strictly before `q` in the
order Compare uses: a non-empty pre-release sorts before the empty one,
two non-empty ones compare byte-wise. -/

def preLt (p q : GoStr) : Prop :=
  (p ≠ [] ∧ q = []) ∨ (p ≠ [] ∧ q ≠ [] ∧ strLtb p q = true)

def ltV (x y : Version) : Prop :=
  x.Major < y.Major ∨ (x.Major = y.Major ∧ (x.Minor < y.Minor ∨ (x.Minor = y.Minor ∧
    (x.Patch < y.Patch ∨ (x.Patch = y.Patch ∧ preLt x.PreRelease y.PreRelease)))))

/-! ### `HTTPRepository.GetLatestRelease` (pkg/repository/http.go) -/

/-- `httpRelease` (http.go): one entry of releases.json. -/
structure HttpRelease where
  Version : GoStr
  URL : GoStr
  MD5 : GoStr
  SHA1 : GoStr
  SHA256 : GoStr
deriving DecidableEq, Repr

/-- `selectChecksum` (http.go): priority SHA256 > SHA1 > MD5. -/
def selectChecksum (r : HttpRelease) : GoStr × GoStr :=
  if r.SHA256 ≠ [] then ("sha256:".data ++ r.SHA256, "SHA256".data)
  else if r.SHA1 ≠ [] then ("sha1:".data ++ r.SHA1, "SHA1".data)
  else if r.MD5 ≠ [] then ("md5:".data ++ r.MD5, "MD5".data)
  else ([], [])

inductive RepoErr where
  | noReleasesFound
  | noValidRelease
deriving DecidableEq, Repr

/-- The body of GetLatestRelease's scan loop: seed with the entry when no
candidate yet, otherwise replace the candidate only when `IsNewer`
succeeds and answers true (comparison errors keep the candidate). -/
def pickStep (acc : Option HttpRelease) (r : HttpRelease) : Option HttpRelease :=
  match acc with
  | none => some r
  | some l =>
    match IsNewer r.Version l.Version with
    | none => some l
    | some b => if b then some r else some l

def pickLatest (rs : List HttpRelease) : Option HttpRelease := rs.foldl pickStep none

/-! ### `Release` (pkg/repository/interface.go) and `Download` (pkg/repository/http.go) -/

structure Release where
  Version : GoStr
  DownloadURL : GoStr
  Checksum : GoStr
  ReleaseDate : Nat
  FileName : GoStr
  AssetID : Int
deriving DecidableEq, Repr

/-- `convertHTTPRelease` (http.go): ReleaseDate is the zero time, AssetID 0. -/
def convertHTTPRelease (r : HttpRelease) : Release :=
  { Version := r.Version, DownloadURL := r.URL, Checksum := (selectChecksum r).1,
    ReleaseDate := 0, FileName := goBase r.URL, AssetID := 0 }

/-- `HTTPRepository.GetLatestRelease` (http.go), given the decoded
releases.json array. -/
def GetLatestRelease (rs : List HttpRelease) : Except RepoErr Release :=
  if rs.length = 0 then .error .noReleasesFound
  else
    match pickLatest rs with
    | none => .error .noValidRelease
    | some l => .ok (convertHTTPRelease l)

/-- Environment switches standing for the fallible externals Download
calls (http.NewRequest, client.Do, response status, os.MkdirAll,
os.Create, io.Copy) plus the response body; `partialBytes` is whatever a
failing io.Copy managed to write. -/
structure DlEnv where
  requestOk : Bool
  networkOk : Bool
  statusCode : Nat
  mkdirOk : Bool
  createOk : Bool
  copyOk : Bool
  body : List Nat
  partialBytes : List Nat
deriving DecidableEq, Repr

inductive DlErr where
  | noDownloadURL
  | requestFailed
  | networkFailed
  | badStatus
  | mkdirFailed
  | createFailed
  | copyFailed
  | checksumFailed (e : VerifyErr)
deriving DecidableEq, Repr

/-- `HTTPRepository.Download` (http.go): stream to dest, then verify the
release checksum when present; on verification failure `os.Remove(dest)`
runs before the error is returned. -/
def Download (H : Hashers) (env : DlEnv) (fs : FsMap) (release : Release) (dest : Path) :
    FsMap × Option DlErr :=
  if release.DownloadURL = [] then (fs, some .noDownloadURL)
  else if !env.requestOk then (fs, some .requestFailed)
  else if !env.networkOk then (fs, some .networkFailed)
  else if env.statusCode ≠ 200 then (fs, some .badStatus)
  else if !env.mkdirOk then (fs, some .mkdirFailed)
  else if !env.createOk then (fs, some .createFailed)
  else if !env.copyOk then
    (fsSet fs dest ⟨env.partialBytes, 420, false, true⟩, some .copyFailed)
  else
    let fs1 := fsSet fs dest ⟨env.body, 420, false, true⟩
    if release.Checksum = [] then (fs1, none)
    else
      match verifyChecksum H fs1 dest release.Checksum with
      | none => (fs1, none)
      | some ve => (fsErase fs1 dest, some (.checksumFailed ve))

/-! ### `convertGitHubRelease` (pkg/repository/github.go)

The `githubRelease` asset struct in github.go has only ID, Name and
BrowserDownloadURL — no digest field — and `convertGitHubRelease` builds
the Release without ever assigning Checksum, which therefore keeps the
zero value "".  (The package's own tests reference an asset `Digest`
field and a `parseDigest` helper that do not exist in github.go.) -/

structure GithubAsset where
  ID : Int
  Name : GoStr
  BrowserDownloadURL : GoStr
deriving DecidableEq, Repr

structure GithubRelease where
  TagName : GoStr
  Name : GoStr
  PublishedAt : Nat
  Assets : List GithubAsset
deriving DecidableEq, Repr

structure GitHubRepository where
  Owner : GoStr
  Repo : GoStr
  Token : GoStr
  AssetName : GoStr
deriving DecidableEq, Repr

inductive GhErr where
  | noAssets
  | assetNotFound
deriving DecidableEq, Repr

def convertGitHubRelease (g : GitHubRepository) (gh : GithubRelease) : Except GhErr Release :=
  match gh.Assets with
  | [] => .error .noAssets
  | a0 :: _ =>
    match (if g.AssetName ≠ [] then
            match gh.Assets.find? (fun a => a.Name == g.AssetName) with
            | none => .error GhErr.assetNotFound
            | some a =>
              if a.BrowserDownloadURL = [] then .error GhErr.assetNotFound
              else .ok (a.BrowserDownloadURL, a.Name, a.ID)
          else (.ok (a0.BrowserDownloadURL, a0.Name, a0.ID) :
            Except GhErr (GoStr × GoStr × Int))) with
    | .error e => .error e
    | .ok (url, fileName, assetID) =>
      .ok { Version := gh.TagName,
            DownloadURL :=
              if g.Token ≠ [] ∧ assetID ≠ 0 then
                "https://api.github.com/repos/".data ++ g.Owner ++ ['/'] ++ g.Repo ++
                  "/releases/assets/".data ++ intToChars assetID
              else url,
            Checksum := [],
            ReleaseDate := gh.PublishedAt,
            FileName := fileName,
            AssetID := assetID }

/-! ## Theorems -/

/-! ## Generic list/string facts used throughout -/

/-- No element of any chunk produced by `splitOnP p` satisfies `p`. -/
theorem not_of_mem_splitOnP {α : Type} {p : α → Bool} (xs : List α) :
    ∀ l ∈ xs.splitOnP p, ∀ a ∈ l, ¬ p a := by
  induction xs with
  | nil =>
    intro l hl a ha
    rw [List.splitOnP_nil, List.mem_singleton] at hl
    subst hl
    exact absurd ha (List.not_mem_nil a)
  | cons x xs ih =>
    intro l hl a ha
    rw [List.splitOnP_cons] at hl
    by_cases hpx : p x
    · rw [if_pos hpx, List.mem_cons] at hl
      rcases hl with rfl | hl
      · exact absurd ha (List.not_mem_nil a)
      · exact ih l hl a ha
    · rw [if_neg hpx] at hl
      rcases hhd : xs.splitOnP p with _ | ⟨hd, tl⟩
      · exact absurd hhd (List.splitOnP_ne_nil p xs)
      · rw [hhd, List.modifyHead, List.mem_cons] at hl
        rcases hl with rfl | hl
        · rw [List.mem_cons] at ha
          rcases ha with rfl | ha
          · exact hpx
          · exact ih hd (hhd ▸ List.mem_cons_self hd tl) a ha
        · exact ih l (hhd ▸ List.mem_cons_of_mem hd hl) a ha

/-- Every element of a chunk produced by `splitOnP` came from the input list. -/
theorem mem_of_mem_splitOnP {α : Type} {p : α → Bool} (xs : List α) :
    ∀ l ∈ xs.splitOnP p, ∀ a ∈ l, a ∈ xs := by
  induction xs with
  | nil =>
    intro l hl a ha
    rw [List.splitOnP_nil, List.mem_singleton] at hl
    subst hl
    exact absurd ha (List.not_mem_nil a)
  | cons x xs ih =>
    intro l hl a ha
    rw [List.splitOnP_cons] at hl
    by_cases hpx : p x
    · rw [if_pos hpx, List.mem_cons] at hl
      rcases hl with rfl | hl
      · exact absurd ha (List.not_mem_nil a)
      · exact List.mem_cons_of_mem x (ih l hl a ha)
    · rw [if_neg hpx] at hl
      rcases hhd : xs.splitOnP p with _ | ⟨hd, tl⟩
      · exact absurd hhd (List.splitOnP_ne_nil p xs)
      · rw [hhd, List.modifyHead, List.mem_cons] at hl
        rcases hl with rfl | hl
        · rw [List.mem_cons] at ha
          rcases ha with rfl | ha
          · exact List.mem_cons_self a xs
          · exact List.mem_cons_of_mem x (ih hd (hhd ▸ List.mem_cons_self hd tl) a ha)
        · exact List.mem_cons_of_mem x (ih l (hhd ▸ List.mem_cons_of_mem hd hl) a ha)

/-- Chunks of `splitOn c` never contain the separator `c`. -/
theorem ne_of_mem_splitOn {xs : GoStr} {c : Char} {l : GoStr} (hl : l ∈ xs.splitOn c)
    {a : Char} (ha : a ∈ l) : a ≠ c := by
  have := not_of_mem_splitOnP (p := (· == c)) xs l hl a ha
  simpa using this

/-- Chunks of `splitOn c` only contain characters of the input string. -/
theorem mem_of_mem_splitOn {xs : GoStr} {c : Char} {l : GoStr} (hl : l ∈ xs.splitOn c)
    {a : Char} (ha : a ∈ l) : a ∈ xs :=
  mem_of_mem_splitOnP (p := (· == c)) xs l hl a ha

theorem intercalate_cons_cons {α : Type} (sep : List α) (a b : List α) (t : List (List α)) :
    List.intercalate sep (a :: b :: t) = a ++ sep ++ List.intercalate sep (b :: t) := by
  simp [List.intercalate, List.intersperse]

/-- A character of `intercalate [x] ls` is the separator or comes from a chunk. -/
theorem mem_intercalate_single {α : Type} {x : α} :
    ∀ (ls : List (List α)), ∀ c ∈ List.intercalate [x] ls, c = x ∨ ∃ l ∈ ls, c ∈ l
  | [] => by intro c hc; simp [List.intercalate] at hc
  | [l] => by
    intro c hc
    simp [List.intercalate] at hc
    exact Or.inr ⟨l, by simp, hc⟩
  | l :: l' :: t => by
    intro c hc
    rw [intercalate_cons_cons] at hc
    simp only [List.mem_append] at hc
    rcases hc with (hc | hc) | hc
    · exact Or.inr ⟨l, by simp, hc⟩
    · simp at hc; exact Or.inl hc
    · rcases mem_intercalate_single (l' :: t) c hc with h | ⟨m, hm, hcm⟩
      · exact Or.inl h
      · exact Or.inr ⟨m, List.mem_cons_of_mem l hm, hcm⟩

theorem strLtb_irrefl : ∀ a : GoStr, strLtb a a = false
  | [] => rfl
  | c :: cs => by simp [strLtb, strLtb_irrefl cs]

theorem strLtb_asymm : ∀ {a b : GoStr}, strLtb a b = true → strLtb b a = false
  | [], [], h => by simp [strLtb] at h
  | [], _ :: _, _ => rfl
  | _ :: _, [], h => by simp [strLtb] at h
  | a :: as, b :: bs, h => by
    simp only [strLtb] at h ⊢
    rcases lt_trichotomy a b with hab | hab | hab
    · simp [hab, not_lt.2 (le_of_lt hab)]
    · subst hab
      simp [lt_irrefl] at h ⊢
      exact strLtb_asymm h
    · simp [hab, not_lt.2 (le_of_lt hab)] at h

theorem strLtb_of_ne : ∀ {a b : GoStr}, a ≠ b → strLtb a b = true ∨ strLtb b a = true
  | [], [], h => absurd rfl h
  | [], _ :: _, _ => Or.inl rfl
  | _ :: _, [], _ => Or.inr rfl
  | a :: as, b :: bs, h => by
    simp only [strLtb]
    rcases lt_trichotomy a b with hab | hab | hab
    · simp [hab]
    · subst hab
      have h' : as ≠ bs := fun he => h (by rw [he])
      simpa [lt_irrefl] using strLtb_of_ne h'
    · simp [hab, not_lt.2 (le_of_lt hab)]

theorem Compare_self (a : Version) : a.Compare a = 0 := by
  simp [Version.Compare]

theorem Compare_antisymm (a b : Version) : a.Compare b = -(b.Compare a) := by
  unfold Version.Compare
  rcases lt_trichotomy a.Major b.Major with h1 | h1 | h1
  · simp [ne_of_lt h1, (ne_of_lt h1).symm, h1, not_lt.2 (le_of_lt h1)]
  · rw [h1]
    simp only [ne_eq, not_true_eq_false, if_neg, lt_self_iff_false, if_false,
      not_false_eq_true, if_true]
    rcases lt_trichotomy a.Minor b.Minor with h2 | h2 | h2
    · simp [ne_of_lt h2, (ne_of_lt h2).symm, h2, not_lt.2 (le_of_lt h2)]
    · rw [h2]
      simp only [ne_eq, not_true_eq_false, if_neg, lt_self_iff_false, if_false,
        not_false_eq_true, if_true]
      rcases lt_trichotomy a.Patch b.Patch with h3 | h3 | h3
      · simp [ne_of_lt h3, (ne_of_lt h3).symm, h3, not_lt.2 (le_of_lt h3)]
      · rw [h3]
        simp only [ne_eq, not_true_eq_false, if_neg, lt_self_iff_false, if_false,
          not_false_eq_true, if_true]
        by_cases hp : a.PreRelease = []
        · by_cases hq : b.PreRelease = []
          · simp [hp, hq]
          · simp [hp, hq]
        · by_cases hq : b.PreRelease = []
          · simp [hp, hq]
          · simp only [hp, hq, ne_eq, not_false_eq_true, and_true, and_false,
              if_false, false_and, if_neg, not_false_eq_true]
            by_cases hpq : a.PreRelease = b.PreRelease
            · simp [hpq]
            · rcases strLtb_of_ne hpq with hl | hl
              · simp [hpq, Ne.symm hpq, hl, strLtb_asymm hl]
              · simp [hpq, Ne.symm hpq, hl, strLtb_asymm hl]
      · simp [ne_of_gt h3, (ne_of_gt h3).symm, h3, not_lt.2 (le_of_lt h3)]
    · simp [ne_of_gt h2, (ne_of_gt h2).symm, h2, not_lt.2 (le_of_lt h2)]
  · simp [ne_of_gt h1, (ne_of_gt h1).symm, h1, not_lt.2 (le_of_lt h1)]

/-! ### C9: antisymmetry of `Version.Compare` -/

/-- C9: for all successfully parsed versions `a` and `b`,
`Compare(a, b) == -Compare(b, a)`, and in particular `Compare(a, a) == 0`. -/
theorem claim_C9_compare_antisymm (sa sb : GoStr) (a b : Version)
    (_ha : Parse sa = some a) (_hb : Parse sb = some b) :
    a.Compare b = -(b.Compare a) ∧ a.Compare a = 0 :=
  ⟨Compare_antisymm a b, Compare_self a⟩

theorem claim_C9_compare_antisymm_witness :
    Parse "1.2.3".data = some ⟨1, 2, 3, [], []⟩ ∧
    Parse "2.0.0-beta".data = some ⟨2, 0, 0, ['b', 'e', 't', 'a'], []⟩ ∧
    (Version.Compare ⟨1, 2, 3, [], []⟩ ⟨2, 0, 0, ['b', 'e', 't', 'a'], []⟩ =
        -(Version.Compare ⟨2, 0, 0, ['b', 'e', 't', 'a'], []⟩ ⟨1, 2, 3, [], []⟩) ∧
      Version.Compare ⟨1, 2, 3, [], []⟩ ⟨1, 2, 3, [], []⟩ = 0) :=
  ⟨by decide, by decide,
    claim_C9_compare_antisymm "1.2.3".data "2.0.0-beta".data _ _ (by decide) (by decide)⟩

/-! ### Digit-rendering lemmas towards the C10 round trip -/

theorem digitChar_isDigit {d : Nat} (h : d < 10) : isDigitChar (Nat.digitChar d) = true := by
  interval_cases d <;> decide

theorem digitChar_toNat {d : Nat} (h : d < 10) : (Nat.digitChar d).toNat = 48 + d := by
  interval_cases d <;> decide

theorem natToChars_ne_nil (n : Nat) : natToChars n ≠ [] := by
  rw [natToChars]
  split <;> simp

theorem natToChars_all_digits (n : Nat) : ∀ c ∈ natToChars n, isDigitChar c = true := by
  induction n using Nat.strong_induction_on with
  | _ n ih =>
    rw [natToChars]
    split
    · rename_i h
      intro c hc
      rw [List.mem_singleton] at hc
      subst hc
      exact digitChar_isDigit h
    · rename_i h
      intro c hc
      rw [List.mem_append] at hc
      rcases hc with hc | hc
      · exact ih (n / 10) (Nat.div_lt_self (by omega) (by omega)) c hc
      · rw [List.mem_singleton] at hc
        subst hc
        exact digitChar_isDigit (Nat.mod_lt _ (by omega))

theorem digitsVal_append_digit (xs : GoStr) (c : Char) :
    digitsVal (xs ++ [c]) = digitsVal xs * 10 + (c.toNat - 48) := by
  simp [digitsVal, List.foldl_append]

theorem digitsVal_natToChars (n : Nat) : digitsVal (natToChars n) = n := by
  induction n using Nat.strong_induction_on with
  | _ n ih =>
    rw [natToChars]
    split
    · rename_i h
      simp only [digitsVal, List.foldl_cons, List.foldl_nil]
      rw [digitChar_toNat h]
      omega
    · rename_i h
      rw [digitsVal_append_digit, ih (n / 10) (Nat.div_lt_self (by omega) (by omega)),
        digitChar_toNat (Nat.mod_lt _ (by omega))]
      omega

/-- A digit character is not one of the separator characters used by
version strings. -/
theorem isDigit_not_special {c : Char} (h : isDigitChar c = true) :
    c ≠ '-' ∧ c ≠ '+' ∧ c ≠ '.' ∧ c ≠ 'v' := by
  refine ⟨?_, ?_, ?_, ?_⟩ <;> (intro he; subst he; revert h; decide)

theorem not_mem_natToChars {n : Nat} {c : Char} (hc : isDigitChar c = false) :
    c ∉ natToChars n := by
  intro hmem
  rw [natToChars_all_digits n c hmem] at hc
  cases hc

theorem goAtoi_natToChars {n : Nat} (h : n ≤ maxInt64) :
    goAtoi (natToChars n) = some (n : Int) := by
  rcases hnc : natToChars n with _ | ⟨c, rest⟩
  · exact absurd hnc (natToChars_ne_nil n)
  · have hc : isDigitChar c = true := natToChars_all_digits n c (hnc ▸ List.mem_cons_self c rest)
    obtain ⟨h1, h2, -, -⟩ := isDigit_not_special hc
    have hall : (natToChars n).all isDigitChar = true :=
      List.all_eq_true.2 (natToChars_all_digits n)
    simp only [goAtoi, if_neg h1, if_neg h2, ← hnc, atoiDigits, digitsVal_natToChars]
    rw [if_pos ⟨natToChars_ne_nil n, hall⟩, if_pos h]
    rfl

theorem goAtoi_nonneg_of_signfree {s : GoStr} {M : Int}
    (hm : '-' ∉ s) (hp : '+' ∉ s) (h : goAtoi s = some M) :
    0 ≤ M ∧ M ≤ (maxInt64 : Int) := by
  rcases s with _ | ⟨c, rest⟩
  · simp [goAtoi] at h
  · have hc1 : c ≠ '-' := fun he => hm (he ▸ List.mem_cons_self c rest)
    have hc2 : c ≠ '+' := fun he => hp (he ▸ List.mem_cons_self c rest)
    simp only [goAtoi, if_neg hc1, if_neg hc2, atoiDigits] at h
    split at h
    · split at h
      · rename_i hb
        simp only [Option.map_some', Option.some.injEq] at h
        subst h
        constructor
        · exact Int.ofNat_nonneg _
        · rw [Int.ofNat_le.symm] at hb
          exact hb
      · simp at h
    · simp at h

/-! ### splitOn helpers over `GoStr` -/

theorem headI_mem {α : Type} [Inhabited α] {l : List α} (h : l ≠ []) : l.headI ∈ l := by
  cases l with
  | nil => exact absurd rfl h
  | cons a t => exact List.mem_cons_self a t

theorem splitOn_ne_nil (c : Char) (xs : GoStr) : xs.splitOn c ≠ [] :=
  List.splitOnP_ne_nil _ xs

theorem splitOn_sepfree {xs : GoStr} {c : Char} (h : c ∉ xs) : xs.splitOn c = [xs] := by
  show xs.splitOnP (· == c) = [xs]
  exact List.splitOnP_eq_single _ _ (fun x hx h' => h ((eq_of_beq h') ▸ hx))

theorem splitOn_append_sep {xs rest : GoStr} {c : Char} (h : c ∉ xs) :
    (xs ++ c :: rest).splitOn c = xs :: rest.splitOn c := by
  show (xs ++ c :: rest).splitOnP (· == c) = xs :: rest.splitOnP (· == c)
  refine List.splitOnP_first _ _ ?_ c (by simp) rest
  intro x hx h'
  exact h ((eq_of_beq h') ▸ hx)

theorem trimPrefixV_no_v {s : GoStr} (h : s.head? ≠ some 'v') : trimPrefixV s = s := by
  cases s with
  | nil => rfl
  | cons c cs =>
    have hc : c ≠ 'v' := by
      intro he
      subst he
      exact h rfl
    simp only [trimPrefixV, if_neg hc]

/-! ### Characterisation of successful parses (towards C10) -/

/-- Any `Version` in the image of `Parse` has non-negative in-range numeric
fields, and neither its pre-release nor its build part contains a '+'. -/
theorem Parse_shape {s : GoStr} {v : Version} (h : Parse s = some v) :
    (0 ≤ v.Major ∧ v.Major ≤ (maxInt64 : Int)) ∧
    (0 ≤ v.Minor ∧ v.Minor ≤ (maxInt64 : Int)) ∧
    (0 ≤ v.Patch ∧ v.Patch ≤ (maxInt64 : Int)) ∧
    '+' ∉ v.PreRelease ∧ '+' ∉ v.Build := by
  simp only [Parse] at h
  split at h
  case h_2 => exact absurd h (by simp)
  case h_1 mj mn pt heq =>
    split at h
    case h_2 => exact absurd h (by simp)
    case h_1 M m p hM hm hp =>
      rw [Option.some.injEq] at h
      subst h
      have hv1 : (trimPrefixV s).splitOn '+' ≠ [] := splitOn_ne_nil _ _
      have hv1m : ((trimPrefixV s).splitOn '+').headI ∈ (trimPrefixV s).splitOn '+' :=
        headI_mem hv1
      have hv2m :
          (((trimPrefixV s).splitOn '+').headI.splitOn '-').headI ∈
            ((trimPrefixV s).splitOn '+').headI.splitOn '-' :=
        headI_mem (splitOn_ne_nil _ _)
      -- no '+' anywhere in the first '+'-chunk
      have hplus : ∀ a ∈ ((trimPrefixV s).splitOn '+').headI, a ≠ '+' :=
        fun a ha => ne_of_mem_splitOn hv1m ha
      -- no '-' in the first '-'-chunk of it
      have hminus : ∀ a ∈ (((trimPrefixV s).splitOn '+').headI.splitOn '-').headI, a ≠ '-' :=
        fun a ha => ne_of_mem_splitOn hv2m ha
      have hnum : ∀ l ∈ [mj, mn, pt], ('-' ∉ l) ∧ ('+' ∉ l) := by
        intro l hl
        rw [← heq] at hl
        constructor
        · intro hc
          exact hminus '-' (mem_of_mem_splitOn hl hc) rfl
        · intro hc
          exact hplus '+' (mem_of_mem_splitOn hv2m (mem_of_mem_splitOn hl hc)) rfl
      refine ⟨?_, ?_, ?_, ?_, ?_⟩
      · exact goAtoi_nonneg_of_signfree (hnum mj (by simp)).1 (hnum mj (by simp)).2 hM
      · exact goAtoi_nonneg_of_signfree (hnum mn (by simp)).1 (hnum mn (by simp)).2 hm
      · exact goAtoi_nonneg_of_signfree (hnum pt (by simp)).1 (hnum pt (by simp)).2 hp
      · -- PreRelease part
        show '+' ∉ (if 1 < (((trimPrefixV s).splitOn '+').headI.splitOn '-').length then _ else _)
        split
        · intro hc
          rcases mem_intercalate_single _ '+' hc with hc' | ⟨l, hl, hcl⟩
          · cases hc'
          · have hl' : l ∈ ((trimPrefixV s).splitOn '+').headI.splitOn '-' :=
              List.mem_of_mem_drop hl
            exact hplus '+' (mem_of_mem_splitOn hl' hcl) rfl
        · simp
      · -- Build part
        show '+' ∉ (((trimPrefixV s).splitOn '+').drop 1).headI
        rcases hd : ((trimPrefixV s).splitOn '+').drop 1 with _ | ⟨l, t⟩
        · decide
        · intro hc
          have hl : l ∈ (trimPrefixV s).splitOn '+' :=
            List.mem_of_mem_drop (hd ▸ List.mem_cons_self l t)
          exact ne_of_mem_splitOn hl (by simpa [List.headI] using hc) rfl

/-- Evaluating `Parse` on a rendered `MAJOR.MINOR.PATCH[-pre][+build]`
string recovers all five components, provided the pre-release and build
parts are free of '+' and the numbers are in `Atoi` range. -/
theorem Parse_render (M m p : Nat) (pre build : GoStr)
    (hM : M ≤ maxInt64) (hm : m ≤ maxInt64) (hp : p ≤ maxInt64)
    (hpre : '+' ∉ pre) (hbuild : '+' ∉ build) :
    Parse (((natToChars M ++ ('.' :: (natToChars m ++ ('.' :: natToChars p))))
          ++ (if pre = [] then [] else '-' :: pre))
        ++ (if build = [] then [] else '+' :: build)) =
      some ⟨Int.ofNat M, Int.ofNat m, Int.ofNat p, pre, build⟩ := by
  -- the numeric core "M.m.p"
  have hNdot : (natToChars M ++ ('.' :: (natToChars m ++ ('.' :: natToChars p)))).splitOn '.' =
      [natToChars M, natToChars m, natToChars p] := by
    rw [splitOn_append_sep (not_mem_natToChars (by decide)),
      splitOn_append_sep (not_mem_natToChars (by decide)),
      splitOn_sepfree (not_mem_natToChars (by decide))]
  have hNplus : '+' ∉ natToChars M ++ ('.' :: (natToChars m ++ ('.' :: natToChars p))) := by
    intro hc
    simp only [List.mem_append, List.mem_cons] at hc
    rcases hc with hc | hc | hc | hc | hc
    · exact not_mem_natToChars (by decide) hc
    · cases hc
    · exact not_mem_natToChars (by decide) hc
    · cases hc
    · exact not_mem_natToChars (by decide) hc
  have hNminus : '-' ∉ natToChars M ++ ('.' :: (natToChars m ++ ('.' :: natToChars p))) := by
    intro hc
    simp only [List.mem_append, List.mem_cons] at hc
    rcases hc with hc | hc | hc | hc | hc
    · exact not_mem_natToChars (by decide) hc
    · cases hc
    · exact not_mem_natToChars (by decide) hc
    · cases hc
    · exact not_mem_natToChars (by decide) hc
  -- the string before the '+' suffix contains no '+'
  have hA0plus : '+' ∉ (natToChars M ++ ('.' :: (natToChars m ++ ('.' :: natToChars p))))
      ++ (if pre = [] then [] else '-' :: pre) := by
    intro hc
    rw [List.mem_append] at hc
    rcases hc with hc | hc
    · exact hNplus hc
    · split at hc
      · cases hc
      · rw [List.mem_cons] at hc
        rcases hc with hc | hc
        · cases hc
        · exact hpre hc
  -- head of the rendered string is a digit, so TrimPrefix("v") is a no-op
  have htrim : ∀ suffix : GoStr,
      trimPrefixV ((natToChars M ++ ('.' :: (natToChars m ++ ('.' :: natToChars p)))) ++ suffix)
        = (natToChars M ++ ('.' :: (natToChars m ++ ('.' :: natToChars p)))) ++ suffix := by
    intro suffix
    rcases hMc : natToChars M with _ | ⟨c, cs⟩
    · exact absurd hMc (natToChars_ne_nil M)
    · have hcd : isDigitChar c = true :=
        natToChars_all_digits M c (hMc ▸ List.mem_cons_self c cs)
      have hcv : c ≠ 'v' := (isDigit_not_special hcd).2.2.2
      rw [List.cons_append, List.cons_append]
      simp only [trimPrefixV, if_neg hcv]
  -- the '-'-level decomposition
  have hPside : (((natToChars M ++ ('.' :: (natToChars m ++ ('.' :: natToChars p))))
        ++ (if pre = [] then [] else '-' :: pre)).splitOn '-') =
      (natToChars M ++ ('.' :: (natToChars m ++ ('.' :: natToChars p)))) ::
        (if pre = [] then [] else pre.splitOn '-') := by
    by_cases hpe : pre = []
    · rw [if_pos hpe, if_pos hpe, List.append_nil, splitOn_sepfree hNminus]
    · rw [if_neg hpe, if_neg hpe, splitOn_append_sep hNminus]
  by_cases hbe : build = []
  · -- no '+' suffix at all
    rw [if_pos hbe, List.append_nil]
    simp only [Parse]
    rw [htrim, splitOn_sepfree hA0plus]
    simp only [List.headI, List.drop, hPside]
    by_cases hpe : pre = []
    · rw [if_pos hpe]
      simp only [List.length_cons, List.length_nil, hNdot]
      rw [goAtoi_natToChars hM, goAtoi_natToChars hm, goAtoi_natToChars hp]
      simp [hpe, hbe]
      rfl
    · rw [if_neg hpe]
      have hlen : 1 < ((natToChars M ++ ('.' :: (natToChars m ++ ('.' :: natToChars p)))) ::
          pre.splitOn '-').length := by
        have := List.length_pos.2 (splitOn_ne_nil '-' pre)
        simp only [List.length_cons]
        omega
      rw [if_pos hlen]
      simp only [List.headI, List.drop, hNdot]
      rw [goAtoi_natToChars hM, goAtoi_natToChars hm, goAtoi_natToChars hp,
        List.intercalate_splitOn]
      simp only [Option.some.injEq, hbe]
      rfl
  · -- a '+' suffix carrying the build part
    rw [if_neg hbe]
    have htrimB : trimPrefixV (((natToChars M ++ ('.' :: (natToChars m ++ ('.' :: natToChars p))))
          ++ (if pre = [] then [] else '-' :: pre)) ++ ('+' :: build)) =
        ((natToChars M ++ ('.' :: (natToChars m ++ ('.' :: natToChars p))))
          ++ (if pre = [] then [] else '-' :: pre)) ++ ('+' :: build) := by
      calc trimPrefixV (((natToChars M ++ ('.' :: (natToChars m ++ ('.' :: natToChars p))))
              ++ (if pre = [] then [] else '-' :: pre)) ++ ('+' :: build))
          = trimPrefixV ((natToChars M ++ ('.' :: (natToChars m ++ ('.' :: natToChars p))))
              ++ ((if pre = [] then [] else '-' :: pre) ++ ('+' :: build))) := by
            rw [List.append_assoc]
        _ = (natToChars M ++ ('.' :: (natToChars m ++ ('.' :: natToChars p))))
              ++ ((if pre = [] then [] else '-' :: pre) ++ ('+' :: build)) := htrim _
        _ = ((natToChars M ++ ('.' :: (natToChars m ++ ('.' :: natToChars p))))
              ++ (if pre = [] then [] else '-' :: pre)) ++ ('+' :: build) :=
            (List.append_assoc _ _ _).symm
    simp only [Parse]
    rw [htrimB, splitOn_append_sep hA0plus, splitOn_sepfree hbuild]
    simp only [List.headI, List.drop, hPside]
    by_cases hpe : pre = []
    · rw [if_pos hpe]
      simp only [hNdot]
      rw [goAtoi_natToChars hM, goAtoi_natToChars hm, goAtoi_natToChars hp]
      simp [hpe]
    · rw [if_neg hpe]
      have hlen : 1 < ((natToChars M ++ ('.' :: (natToChars m ++ ('.' :: natToChars p)))) ::
          pre.splitOn '-').length := by
        have := List.length_pos.2 (splitOn_ne_nil '-' pre)
        simp only [List.length_cons]
        omega
      rw [if_pos hlen]
      simp only [List.headI, List.drop, hNdot]
      rw [goAtoi_natToChars hM, goAtoi_natToChars hm, goAtoi_natToChars hp,
        List.intercalate_splitOn]
      rfl

/-- C10: for every string `s` accepted by `Parse` with result `v`, the
rendering `v.String()` is again accepted by `Parse` and parses back to a
`Version` equal to `v` in all five fields. -/
theorem claim_C10_parse_string_roundtrip (s : GoStr) (v : Version) (h : Parse s = some v) :
    Parse v.toGoString = some v := by
  obtain ⟨⟨hM0, hM1⟩, ⟨hm0, hm1⟩, ⟨hp0, hp1⟩, hpre, hbuild⟩ := Parse_shape h
  have eM : intToChars v.Major = natToChars v.Major.toNat := by
    rw [intToChars, if_neg (not_lt.2 hM0)]
  have em : intToChars v.Minor = natToChars v.Minor.toNat := by
    rw [intToChars, if_neg (not_lt.2 hm0)]
  have ep : intToChars v.Patch = natToChars v.Patch.toNat := by
    rw [intToChars, if_neg (not_lt.2 hp0)]
  have hM1' : v.Major.toNat ≤ maxInt64 := by
    unfold maxInt64 at hM1 ⊢
    omega
  have hm1' : v.Minor.toNat ≤ maxInt64 := by
    unfold maxInt64 at hm1 ⊢
    omega
  have hp1' : v.Patch.toNat ≤ maxInt64 := by
    unfold maxInt64 at hp1 ⊢
    omega
  have htos : v.toGoString =
      ((natToChars v.Major.toNat
          ++ ('.' :: (natToChars v.Minor.toNat ++ ('.' :: natToChars v.Patch.toNat))))
        ++ (if v.PreRelease = [] then [] else '-' :: v.PreRelease))
      ++ (if v.Build = [] then [] else '+' :: v.Build) := by
    rw [Version.toGoString, eM, em, ep]
    simp [List.append_assoc]
  rw [htos, Parse_render _ _ _ v.PreRelease v.Build hM1' hm1' hp1' hpre hbuild,
    Option.some.injEq]
  have h1 : Int.ofNat v.Major.toNat = v.Major := Int.toNat_of_nonneg hM0
  have h2 : Int.ofNat v.Minor.toNat = v.Minor := Int.toNat_of_nonneg hm0
  have h3 : Int.ofNat v.Patch.toNat = v.Patch := Int.toNat_of_nonneg hp0
  rw [h1, h2, h3]

theorem claim_C10_parse_string_roundtrip_witness :
    Parse "v1.2.3-beta+7".data = some ⟨1, 2, 3, ['b', 'e', 't', 'a'], ['7']⟩ ∧
    Parse (Version.toGoString ⟨1, 2, 3, ['b', 'e', 't', 'a'], ['7']⟩) =
      some ⟨1, 2, 3, ['b', 'e', 't', 'a'], ['7']⟩ :=
  ⟨by decide,
    claim_C10_parse_string_roundtrip "v1.2.3-beta+7".data
      ⟨1, 2, 3, ['b', 'e', 't', 'a'], ['7']⟩ (by decide)⟩

/-! ### C1: the path-traversal guard -/

theorem zipEntryWrites_path (dest : Path) (f : ZipFile) :
    ∀ w ∈ zipEntryWrites dest f, w.path = goJoin2 dest f.name := by
  intro w hw
  simp only [zipEntryWrites] at hw
  split at hw
  · rw [List.mem_singleton] at hw
    subst hw
    rfl
  · rw [List.mem_cons, List.mem_singleton] at hw
    rcases hw with rfl | rfl <;> rfl

theorem tarEntryWrites_path (dest : Path) (e : TarEntry) :
    ∀ w ∈ tarEntryWrites dest e, w.path = goJoin2 dest e.name := by
  intro w hw
  simp only [tarEntryWrites] at hw
  split at hw
  · rw [List.mem_singleton] at hw
    subst hw
    rfl
  · split at hw
    · rw [List.mem_cons, List.mem_singleton] at hw
      rcases hw with rfl | rfl <;> rfl
    · cases hw

theorem extractZip_traversal (dest : Path) (zfs : List ZipFile)
    (h : ∃ f ∈ zfs, pathOk dest (goJoin2 dest f.name) = false) :
    ∃ bad, zfs.find? (fun f => !(pathOk dest (goJoin2 dest f.name))) = some bad ∧
      extractZip dest zfs =
        ((zfs.takeWhile (fun f => pathOk dest (goJoin2 dest f.name))).flatMap (zipEntryWrites dest),
          some (.pathTraversal (goJoin2 dest bad.name))) := by
  induction zfs with
  | nil =>
    rcases h with ⟨f, hf, -⟩
    cases hf
  | cons f fs ih =>
    by_cases hok : pathOk dest (goJoin2 dest f.name) = true
    · have h' : ∃ g ∈ fs, pathOk dest (goJoin2 dest g.name) = false := by
        rcases h with ⟨g, hg, hgb⟩
        rcases List.mem_cons.1 hg with rfl | hg
        · rw [hok] at hgb
          cases hgb
        · exact ⟨g, hg, hgb⟩
      obtain ⟨bad, hfind, hres⟩ := ih h'
      refine ⟨bad, ?_, ?_⟩
      · rw [List.find?_cons_of_neg _ (by simp [hok]), hfind]
      · simp [extractZip, hok, hres]
    · rw [Bool.not_eq_true] at hok
      refine ⟨f, ?_, ?_⟩
      · exact List.find?_cons_of_pos _ (by simp [hok])
      · simp [extractZip, hok]

theorem extractZip_writes_safe (dest : Path) (zfs : List ZipFile) :
    ∀ w ∈ (extractZip dest zfs).1, pathOk dest w.path = true := by
  induction zfs with
  | nil =>
    intro w hw
    cases hw
  | cons f fs ih =>
    intro w hw
    by_cases hok : pathOk dest (goJoin2 dest f.name) = true
    · simp only [extractZip, if_pos hok] at hw
      rw [List.mem_append] at hw
      rcases hw with hw | hw
      · rw [zipEntryWrites_path dest f w hw]
        exact hok
      · exact ih w hw
    · rw [Bool.not_eq_true] at hok
      simp only [extractZip, hok, Bool.false_eq_true, if_neg, not_false_eq_true] at hw
      cases hw

theorem extractTarGz_traversal (dest : Path) (tfs : List TarEntry)
    (h : ∃ e ∈ tfs, pathOk dest (goJoin2 dest e.name) = false) :
    ∃ bad, tfs.find? (fun e => !(pathOk dest (goJoin2 dest e.name))) = some bad ∧
      extractTarGz dest tfs =
        ((tfs.takeWhile (fun e => pathOk dest (goJoin2 dest e.name))).flatMap (tarEntryWrites dest),
          some (.pathTraversal (goJoin2 dest bad.name))) := by
  induction tfs with
  | nil =>
    rcases h with ⟨e, he, -⟩
    cases he
  | cons e es ih =>
    by_cases hok : pathOk dest (goJoin2 dest e.name) = true
    · have h' : ∃ g ∈ es, pathOk dest (goJoin2 dest g.name) = false := by
        rcases h with ⟨g, hg, hgb⟩
        rcases List.mem_cons.1 hg with rfl | hg
        · rw [hok] at hgb
          cases hgb
        · exact ⟨g, hg, hgb⟩
      obtain ⟨bad, hfind, hres⟩ := ih h'
      refine ⟨bad, ?_, ?_⟩
      · rw [List.find?_cons_of_neg _ (by simp [hok]), hfind]
      · simp [extractTarGz, hok, hres]
    · rw [Bool.not_eq_true] at hok
      refine ⟨e, ?_, ?_⟩
      · exact List.find?_cons_of_pos _ (by simp [hok])
      · simp [extractTarGz, hok]

/-! ### C2: symlink handling -/

theorem zipEntryWrites_no_symlink (dest : Path) (f : ZipFile) :
    ∀ w ∈ zipEntryWrites dest f, w.isSymlink = false := by
  intro w hw
  simp only [zipEntryWrites] at hw
  split at hw
  · rw [List.mem_singleton] at hw
    subst hw
    rfl
  · rw [List.mem_cons, List.mem_singleton] at hw
    rcases hw with rfl | rfl <;> rfl

theorem tarEntryWrites_no_symlink (dest : Path) (e : TarEntry) :
    ∀ w ∈ tarEntryWrites dest e, w.isSymlink = false := by
  intro w hw
  simp only [tarEntryWrites] at hw
  split at hw
  · rw [List.mem_singleton] at hw
    subst hw
    rfl
  · split at hw
    · rw [List.mem_cons, List.mem_singleton] at hw
      rcases hw with rfl | rfl <;> rfl
    · cases hw

theorem extractZip_no_symlink (dest : Path) (zfs : List ZipFile) :
    ∀ w ∈ (extractZip dest zfs).1, w.isSymlink = false := by
  induction zfs with
  | nil =>
    intro w hw
    cases hw
  | cons f fs ih =>
    intro w hw
    by_cases hok : pathOk dest (goJoin2 dest f.name) = true
    · simp only [extractZip, if_pos hok] at hw
      rw [List.mem_append] at hw
      rcases hw with hw | hw
      · exact zipEntryWrites_no_symlink dest f w hw
      · exact ih w hw
    · rw [Bool.not_eq_true] at hok
      simp only [extractZip, hok, Bool.false_eq_true, if_neg, not_false_eq_true] at hw
      cases hw

theorem extractTarGz_no_symlink (dest : Path) (tfs : List TarEntry) :
    ∀ w ∈ (extractTarGz dest tfs).1, w.isSymlink = false := by
  induction tfs with
  | nil =>
    intro w hw
    cases hw
  | cons e es ih =>
    intro w hw
    by_cases hok : pathOk dest (goJoin2 dest e.name) = true
    · simp only [extractTarGz, if_pos hok] at hw
      rw [List.mem_append] at hw
      rcases hw with hw | hw
      · exact tarEntryWrites_no_symlink dest e w hw
      · exact ih w hw
    · rw [Bool.not_eq_true] at hok
      simp only [extractTarGz, hok, Bool.false_eq_true, if_neg, not_false_eq_true] at hw
      cases hw

theorem tarEntryWrites_symlink_skipped (dest : Path) (e : TarEntry)
    (h : e.typeflag = tarTypeSymlink) : tarEntryWrites dest e = [] := by
  rw [tarEntryWrites, if_neg (by rw [h]; decide), if_neg (by rw [h]; decide)]

theorem extractTarGz_reg_extracted (dest : Path) (tfs : List TarEntry)
    (h : (extractTarGz dest tfs).2 = none) :
    ∀ e ∈ tfs, e.typeflag = tarTypeReg →
      FsWrite.createFile (goJoin2 dest e.name) e.mode e.content ∈ (extractTarGz dest tfs).1 := by
  induction tfs with
  | nil =>
    intro e he
    cases he
  | cons e es ih =>
    by_cases hok : pathOk dest (goJoin2 dest e.name) = true
    · simp only [extractTarGz, if_pos hok] at h ⊢
      intro g hg hreg
      rw [List.mem_append]
      rcases List.mem_cons.1 hg with rfl | hg
      · refine Or.inl ?_
        rw [tarEntryWrites, if_neg (by rw [hreg]; decide), if_pos hreg]
        exact List.mem_cons_of_mem _ (List.mem_singleton.2 rfl)
      · exact Or.inr (ih h g hg hreg)
    · rw [Bool.not_eq_true] at hok
      simp only [extractTarGz, hok, Bool.false_eq_true, if_neg, not_false_eq_true] at h
      cases h

theorem extractZip_file_extracted (dest : Path) (zfs : List ZipFile)
    (h : (extractZip dest zfs).2 = none) :
    ∀ f ∈ zfs, f.isDir = false →
      FsWrite.createFile (goJoin2 dest f.name) f.mode f.content ∈ (extractZip dest zfs).1 := by
  induction zfs with
  | nil =>
    intro f hf
    cases hf
  | cons f fs ih =>
    by_cases hok : pathOk dest (goJoin2 dest f.name) = true
    · simp only [extractZip, if_pos hok] at h ⊢
      intro g hg hreg
      rw [List.mem_append]
      rcases List.mem_cons.1 hg with rfl | hg
      · refine Or.inl ?_
        rw [zipEntryWrites, if_neg (by rw [hreg]; exact Bool.false_ne_true)]
        exact List.mem_cons_of_mem _ (List.mem_singleton.2 rfl)
      · exact Or.inr (ih h g hg hreg)
    · rw [Bool.not_eq_true] at hok
      simp only [extractZip, hok, Bool.false_eq_true, if_neg, not_false_eq_true] at h
      cases h

theorem extractTarGz_writes_safe (dest : Path) (tfs : List TarEntry) :
    ∀ w ∈ (extractTarGz dest tfs).1, pathOk dest w.path = true := by
  induction tfs with
  | nil =>
    intro w hw
    cases hw
  | cons e es ih =>
    intro w hw
    by_cases hok : pathOk dest (goJoin2 dest e.name) = true
    · simp only [extractTarGz, if_pos hok] at hw
      rw [List.mem_append] at hw
      rcases hw with hw | hw
      · rw [tarEntryWrites_path dest e w hw]
        exact hok
      · exact ih w hw
    · rw [Bool.not_eq_true] at hok
      simp only [extractTarGz, hok, Bool.false_eq_true, if_neg, not_false_eq_true] at hw
      cases hw

theorem Apply_zip_dispatch (dest srcName target : Path) (zfs : List ZipFile)
    (hdest : dest ≠ []) (hsuf : (".zip".data).isSuffixOf srcName = true) :
    ArchiveApplier.Apply ⟨dest⟩ srcName (.zip zfs) target = extractZip dest zfs := by
  simp [ArchiveApplier.Apply, hdest, hsuf]

theorem Apply_tar_dispatch (dest srcName target : Path) (tfs : List TarEntry)
    (hdest : dest ≠ []) (hnz : (".zip".data).isSuffixOf srcName = false)
    (hsuf : ((".tar.gz".data).isSuffixOf srcName || (".tgz".data).isSuffixOf srcName) = true) :
    ArchiveApplier.Apply ⟨dest⟩ srcName (.targz tfs) target = extractTarGz dest tfs := by
  simp [ArchiveApplier.Apply, hdest, hnz, hsuf]

/-- C1: for every archive entry (zip or tar.gz) whose name joined to the
extraction root does not have the cleaned root plus trailing separator as
a strict prefix, `Apply` returns a PathTraversal error naming the joined
path, extraction stops at the first such entry (only the guard-passing
prefix of entries produced writes), and every write performed lies under
the extraction root. -/
theorem claim_C1_path_traversal (dest srcZip srcTar target : Path)
    (zfs : List ZipFile) (tfs : List TarEntry)
    (hdest : dest ≠ [])
    (hsufz : (".zip".data).isSuffixOf srcZip = true)
    (hnzt : (".zip".data).isSuffixOf srcTar = false)
    (hsuft : ((".tar.gz".data).isSuffixOf srcTar || (".tgz".data).isSuffixOf srcTar) = true) :
    ((∃ f ∈ zfs, pathOk dest (goJoin2 dest f.name) = false) →
      ∃ bad, zfs.find? (fun f => !(pathOk dest (goJoin2 dest f.name))) = some bad ∧
        ArchiveApplier.Apply ⟨dest⟩ srcZip (.zip zfs) target =
          ((zfs.takeWhile (fun f => pathOk dest (goJoin2 dest f.name))).flatMap
              (zipEntryWrites dest),
            some (.pathTraversal (goJoin2 dest bad.name))) ∧
        ∀ w ∈ (ArchiveApplier.Apply ⟨dest⟩ srcZip (.zip zfs) target).1,
          pathOk dest w.path = true) ∧
    ((∃ e ∈ tfs, pathOk dest (goJoin2 dest e.name) = false) →
      ∃ bad, tfs.find? (fun e => !(pathOk dest (goJoin2 dest e.name))) = some bad ∧
        ArchiveApplier.Apply ⟨dest⟩ srcTar (.targz tfs) target =
          ((tfs.takeWhile (fun e => pathOk dest (goJoin2 dest e.name))).flatMap
              (tarEntryWrites dest),
            some (.pathTraversal (goJoin2 dest bad.name))) ∧
        ∀ w ∈ (ArchiveApplier.Apply ⟨dest⟩ srcTar (.targz tfs) target).1,
          pathOk dest w.path = true) := by
  rw [Apply_zip_dispatch dest srcZip target zfs hdest hsufz,
    Apply_tar_dispatch dest srcTar target tfs hdest hnzt hsuft]
  constructor
  · intro h
    obtain ⟨bad, h1, h2⟩ := extractZip_traversal dest zfs h
    exact ⟨bad, h1, h2, extractZip_writes_safe dest zfs⟩
  · intro h
    obtain ⟨bad, h1, h2⟩ := extractTarGz_traversal dest tfs h
    exact ⟨bad, h1, h2, extractTarGz_writes_safe dest tfs⟩

theorem claim_C1_path_traversal_witness :
    (("/opt/app".data : Path) ≠ []) ∧
    ((".zip".data).isSuffixOf "/tmp/evil.zip".data = true) ∧
    ((".zip".data).isSuffixOf "/tmp/evil.tgz".data = false) ∧
    (((".tar.gz".data).isSuffixOf "/tmp/evil.tgz".data ||
        (".tgz".data).isSuffixOf "/tmp/evil.tgz".data) = true) ∧
    (∃ f ∈ [(⟨"ok.txt".data, false, false, 420, [104]⟩ : ZipFile),
        ⟨"../../../etc/passwd".data, false, false, 420, [109]⟩],
      pathOk "/opt/app".data (goJoin2 "/opt/app".data f.name) = false) ∧
    (∃ e ∈ [(⟨"../../../etc/passwd".data, tarTypeReg, 420, [109]⟩ : TarEntry)],
      pathOk "/opt/app".data (goJoin2 "/opt/app".data e.name) = false) ∧
    (∃ bad, ([(⟨"ok.txt".data, false, false, 420, [104]⟩ : ZipFile),
          ⟨"../../../etc/passwd".data, false, false, 420, [109]⟩].find?
            (fun f => !(pathOk "/opt/app".data (goJoin2 "/opt/app".data f.name))) = some bad ∧
        ArchiveApplier.Apply ⟨"/opt/app".data⟩ "/tmp/evil.zip".data
            (.zip [⟨"ok.txt".data, false, false, 420, [104]⟩,
              ⟨"../../../etc/passwd".data, false, false, 420, [109]⟩]) "/opt/app/bin".data =
          (([(⟨"ok.txt".data, false, false, 420, [104]⟩ : ZipFile),
              ⟨"../../../etc/passwd".data, false, false, 420, [109]⟩].takeWhile
                (fun f => pathOk "/opt/app".data (goJoin2 "/opt/app".data f.name))).flatMap
              (zipEntryWrites "/opt/app".data),
            some (.pathTraversal (goJoin2 "/opt/app".data bad.name))) ∧
        ∀ w ∈ (ArchiveApplier.Apply ⟨"/opt/app".data⟩ "/tmp/evil.zip".data
            (.zip [⟨"ok.txt".data, false, false, 420, [104]⟩,
              ⟨"../../../etc/passwd".data, false, false, 420, [109]⟩]) "/opt/app/bin".data).1,
          pathOk "/opt/app".data w.path = true)) :=
  ⟨by decide, by decide, by decide, by decide, by decide, by decide,
    (claim_C1_path_traversal "/opt/app".data "/tmp/evil.zip".data "/tmp/evil.tgz".data
        "/opt/app/bin".data
        [⟨"ok.txt".data, false, false, 420, [104]⟩,
          ⟨"../../../etc/passwd".data, false, false, 420, [109]⟩]
        [⟨"../../../etc/passwd".data, tarTypeReg, 420, [109]⟩]
        (by decide) (by decide) (by decide) (by decide)).1 (by decide)⟩

/-- C2: symlink entries (tar `TypeSymlink`, zip entries with symlink mode
bits) are never materialised as symlinks: a successful `Apply` performs no
symlink-creating write at all, tar symlink entries are skipped outright,
and the regular entries of the same archive are still extracted. -/
theorem claim_C2_no_symlinks (dest srcZip srcTar target : Path)
    (zfs : List ZipFile) (tfs : List TarEntry)
    (hdest : dest ≠ [])
    (hsufz : (".zip".data).isSuffixOf srcZip = true)
    (hnzt : (".zip".data).isSuffixOf srcTar = false)
    (hsuft : ((".tar.gz".data).isSuffixOf srcTar || (".tgz".data).isSuffixOf srcTar) = true)
    (hz : (ArchiveApplier.Apply ⟨dest⟩ srcZip (.zip zfs) target).2 = none)
    (ht : (ArchiveApplier.Apply ⟨dest⟩ srcTar (.targz tfs) target).2 = none) :
    (∀ w ∈ (ArchiveApplier.Apply ⟨dest⟩ srcZip (.zip zfs) target).1, w.isSymlink = false) ∧
    (∀ w ∈ (ArchiveApplier.Apply ⟨dest⟩ srcTar (.targz tfs) target).1, w.isSymlink = false) ∧
    (∀ e ∈ tfs, e.typeflag = tarTypeSymlink → tarEntryWrites dest e = []) ∧
    (∀ e ∈ tfs, e.typeflag = tarTypeReg →
      FsWrite.createFile (goJoin2 dest e.name) e.mode e.content ∈
        (ArchiveApplier.Apply ⟨dest⟩ srcTar (.targz tfs) target).1) ∧
    (∀ f ∈ zfs, f.isDir = false → f.isSymlink = false →
      FsWrite.createFile (goJoin2 dest f.name) f.mode f.content ∈
        (ArchiveApplier.Apply ⟨dest⟩ srcZip (.zip zfs) target).1) := by
  rw [Apply_zip_dispatch dest srcZip target zfs hdest hsufz] at hz ⊢
  rw [Apply_tar_dispatch dest srcTar target tfs hdest hnzt hsuft] at ht ⊢
  refine ⟨extractZip_no_symlink dest zfs, extractTarGz_no_symlink dest tfs,
    fun e _ hsym => tarEntryWrites_symlink_skipped dest e hsym,
    extractTarGz_reg_extracted dest tfs ht,
    fun f hf hdir _ => extractZip_file_extracted dest zfs hz f hf hdir⟩

theorem claim_C2_no_symlinks_witness :
    ((ArchiveApplier.Apply ⟨"/opt/app".data⟩ "/tmp/u.zip".data
        (.zip [⟨"regular.txt".data, false, false, 420, [104]⟩,
          ⟨"link.txt".data, false, true, 511, [114]⟩]) "/opt/app/bin".data).2 = none) ∧
    ((ArchiveApplier.Apply ⟨"/opt/app".data⟩ "/tmp/u.tgz".data
        (.targz [⟨"regular.txt".data, tarTypeReg, 420, [104]⟩,
          ⟨"link.txt".data, tarTypeSymlink, 511, []⟩]) "/opt/app/bin".data).2 = none) ∧
    (∀ w ∈ (ArchiveApplier.Apply ⟨"/opt/app".data⟩ "/tmp/u.zip".data
        (.zip [⟨"regular.txt".data, false, false, 420, [104]⟩,
          ⟨"link.txt".data, false, true, 511, [114]⟩]) "/opt/app/bin".data).1,
      w.isSymlink = false) ∧
    (∀ w ∈ (ArchiveApplier.Apply ⟨"/opt/app".data⟩ "/tmp/u.tgz".data
        (.targz [⟨"regular.txt".data, tarTypeReg, 420, [104]⟩,
          ⟨"link.txt".data, tarTypeSymlink, 511, []⟩]) "/opt/app/bin".data).1,
      w.isSymlink = false) ∧
    FsWrite.createFile (goJoin2 "/opt/app".data "regular.txt".data) 420 [104] ∈
      (ArchiveApplier.Apply ⟨"/opt/app".data⟩ "/tmp/u.tgz".data
        (.targz [⟨"regular.txt".data, tarTypeReg, 420, [104]⟩,
          ⟨"link.txt".data, tarTypeSymlink, 511, []⟩]) "/opt/app/bin".data).1 := by
  have h := claim_C2_no_symlinks "/opt/app".data "/tmp/u.zip".data "/tmp/u.tgz".data
    "/opt/app/bin".data
    [⟨"regular.txt".data, false, false, 420, [104]⟩, ⟨"link.txt".data, false, true, 511, [114]⟩]
    [⟨"regular.txt".data, tarTypeReg, 420, [104]⟩, ⟨"link.txt".data, tarTypeSymlink, 511, []⟩]
    (by decide) (by decide) (by decide) (by decide) (by decide) (by decide)
  exact ⟨by decide, by decide, h.1, h.2.1,
    h.2.2.2.1 ⟨"regular.txt".data, tarTypeReg, 420, [104]⟩ (by decide) rfl⟩

theorem fsGet_set (m : FsMap) (k : Path) (v : FsEntry) (q : Path) :
    fsGet (fsSet m k v) q = if q = k then some v else fsGet m q := rfl

theorem fsGet_erase (m : FsMap) (k q : Path) :
    fsGet (fsErase m k) q = if q = k then none else fsGet m q := by
  induction m with
  | nil => simp [fsErase, fsGet]
  | cons kv m ih =>
    obtain ⟨k', v'⟩ := kv
    by_cases hk : k' = k
    · subst hk
      by_cases hq : q = k'
      · subst hq
        simp [fsErase, fsGet, List.filter] at ih ⊢
        rw [ih]
      · simp only [fsErase, List.filter, bne_self_eq_false] at ih ⊢
        rw [fsGet, if_neg hq] at *
        rw [ih, if_neg hq]
    · have : (k', v').1 != k := by simp [hk]
      simp only [fsErase, List.filter, this] at ih ⊢
      by_cases hq : q = k'
      · subst hq
        rw [fsGet, if_pos rfl, if_neg hk]
        rw [fsGet, if_pos rfl]
      · rw [fsGet, if_neg hq, ih]
        by_cases hqk : q = k
        · rw [if_pos hqk, if_pos hqk]
        · rw [if_neg hqk, if_neg hqk, fsGet, if_neg hq]

theorem chmod755_get_self {m : FsMap} {k : Path} {v : FsEntry} (h : fsGet m k = some v) :
    fsGet (chmod755 m k) k = some ⟨v.content, 493, v.isDir, v.readable⟩ := by
  rw [chmod755, h, fsGet_set, if_pos rfl]

theorem chmod755_get_other {m : FsMap} {k q : Path} (hq : q ≠ k) :
    fsGet (chmod755 m k) q = fsGet m q := by
  rw [chmod755]
  rcases h : fsGet m k with _ | v
  · rfl
  · rw [fsGet_set, if_neg hq, fsGet_erase, if_neg hq]

theorem target_ne_tmp (t : Path) : t ≠ t ++ tmpSuffix := by
  intro h
  have := congrArg List.length h
  simp [tmpSuffix] at this

/-- C3, refuted: with a pre-existing target "v1" and source "v2", when the
step-4 rename fails the returned error leaves the temp file on disk and
the target already deleted — the claim promised the temp file removed and
the target's prior content retained. -/
theorem claim_C3_counterexample :
    (binaryApply ⟨true, true, true, true, true, false, true, []⟩
        [("/s".data, ⟨[118, 50], 493, false, true⟩), ("/t".data, ⟨[118, 49], 420, false, true⟩)]
        "/s".data "/t".data).2 = some BinErr.renameTemp ∧
    fsGet (binaryApply ⟨true, true, true, true, true, false, true, []⟩
        [("/s".data, ⟨[118, 50], 493, false, true⟩), ("/t".data, ⟨[118, 49], 420, false, true⟩)]
        "/s".data "/t".data).1 ("/t".data ++ tmpSuffix) = some ⟨[118, 50], 493, false, true⟩ ∧
    fsGet (binaryApply ⟨true, true, true, true, true, false, true, []⟩
        [("/s".data, ⟨[118, 50], 493, false, true⟩), ("/t".data, ⟨[118, 49], 420, false, true⟩)]
        "/s".data "/t".data).1 "/t".data = none := by
  decide

/-- C3, amended: failures at steps 1–3 (open/stat source, stream into the
temp file, remove a pre-existing target) leave no temp file behind and
leave the rest of the file system — the target included — untouched; a
failure of the step-4 rename returns an error but leaves the temp file in
place and the target path empty (its prior content was already removed in
step 3); on success the target holds the source content at mode 0755 and
no temp file remains. -/
theorem claim_C3_binary_replace_amended (e : BinEnv) (fs : FsMap) (source target : Path) :
    ((binaryApply e fs source target).2 = some BinErr.openSource ∨
        (binaryApply e fs source target).2 = some BinErr.statSource ∨
        (binaryApply e fs source target).2 = some BinErr.createTemp →
      (binaryApply e fs source target).1 = fs) ∧
    ((binaryApply e fs source target).2 = some BinErr.copyFile ∨
        (binaryApply e fs source target).2 = some BinErr.removeTarget →
      fsGet (binaryApply e fs source target).1 (target ++ tmpSuffix) = none ∧
        ∀ q, q ≠ target ++ tmpSuffix →
          fsGet (binaryApply e fs source target).1 q = fsGet fs q) ∧
    ((binaryApply e fs source target).2 = some BinErr.renameTemp →
      fsGet (binaryApply e fs source target).1 (target ++ tmpSuffix) ≠ none ∧
        fsGet (binaryApply e fs source target).1 target = none) ∧
    ((binaryApply e fs source target).2 = none →
      ∃ src, fsGet fs source = some src ∧
        fsGet (binaryApply e fs source target).1 target = some ⟨src.content, 493, false, true⟩ ∧
        fsGet (binaryApply e fs source target).1 (target ++ tmpSuffix) = none) := by
  have hne : target ≠ target ++ tmpSuffix := target_ne_tmp target
  have hne' : ¬ (target ++ tmpSuffix = target) := fun h => hne h.symm
  rcases hsrc : fsGet fs source with _ | src
  · simp [binaryApply, hsrc]
  · cases hOpen : (!e.openOk || !src.readable) with
    | true => simp [binaryApply, hsrc, hOpen]
    | false =>
    cases hStat : (!e.statOk) with
    | true => simp [binaryApply, hsrc, hOpen, hStat]
    | false =>
    cases hCr : (!e.createTmpOk) with
    | true => simp [binaryApply, hsrc, hOpen, hStat, hCr]
    | false =>
    cases hCopy : (!e.copyOk || src.isDir) with
    | true =>
      simp [binaryApply, hsrc, hOpen, hStat, hCr, hCopy]
      constructor
      · rw [fsGet_erase, if_pos rfl]
      · intro q hq
        rw [fsGet_erase, if_neg hq, fsGet_set, if_neg hq]
    | false =>
    rcases htgt : fsGet (fsSet fs (target ++ tmpSuffix) ⟨src.content, src.mode, false, true⟩)
        target with _ | old
    · cases hRen : (!e.renameOk) with
      | true =>
        simp [binaryApply, hsrc, hOpen, hStat, hCr, hCopy, htgt, hRen]
        rw [fsGet_set, if_pos rfl]
        simp
      | false =>
        cases hCh : (!e.chmodOk) with
        | true =>
          simp [binaryApply, hsrc, hOpen, hStat, hCr, hCopy, htgt, hRen, hCh]
        | false =>
          simp [binaryApply, hsrc, hOpen, hStat, hCr, hCopy, htgt, hRen, hCh]
          constructor
          · rw [chmod755_get_self (by rw [fsGet_set, if_pos rfl])]
          · rw [chmod755_get_other hne', fsGet_set, if_neg hne', fsGet_erase, if_pos rfl]
    · cases hRem : (!e.removeOk) with
      | true =>
        simp [binaryApply, hsrc, hOpen, hStat, hCr, hCopy, htgt, hRem]
        constructor
        · rw [fsGet_erase, if_pos rfl]
        · intro q hq
          rw [fsGet_erase, if_neg hq, fsGet_set, if_neg hq]
      | false =>
        cases hRen : (!e.renameOk) with
        | true =>
          simp [binaryApply, hsrc, hOpen, hStat, hCr, hCopy, htgt, hRem, hRen]
          constructor
          · rw [fsGet_erase, if_neg hne', fsGet_set, if_pos rfl]
            simp
          · rw [fsGet_erase, if_pos rfl]
        | false =>
          cases hCh : (!e.chmodOk) with
          | true =>
            simp [binaryApply, hsrc, hOpen, hStat, hCr, hCopy, htgt, hRem, hRen, hCh]
          | false =>
            simp [binaryApply, hsrc, hOpen, hStat, hCr, hCopy, htgt, hRem, hRen, hCh]
            constructor
            · rw [chmod755_get_self (by rw [fsGet_set, if_pos rfl])]
            · rw [chmod755_get_other hne', fsGet_set, if_neg hne', fsGet_erase, if_pos rfl]

theorem claim_C3_binary_replace_amended_witness :
    (binaryApply ⟨true, true, true, true, true, true, true, []⟩
        [("/s".data, ⟨[118, 50], 493, false, true⟩), ("/t".data, ⟨[118, 49], 420, false, true⟩)]
        "/s".data "/t".data).2 = none ∧
    (∃ src, fsGet [("/s".data, ⟨[118, 50], 493, false, true⟩),
          ("/t".data, ⟨[118, 49], 420, false, true⟩)] "/s".data = some src ∧
      fsGet (binaryApply ⟨true, true, true, true, true, true, true, []⟩
          [("/s".data, ⟨[118, 50], 493, false, true⟩),
            ("/t".data, ⟨[118, 49], 420, false, true⟩)]
          "/s".data "/t".data).1 "/t".data = some ⟨src.content, 493, false, true⟩ ∧
      fsGet (binaryApply ⟨true, true, true, true, true, true, true, []⟩
          [("/s".data, ⟨[118, 50], 493, false, true⟩),
            ("/t".data, ⟨[118, 49], 420, false, true⟩)]
          "/s".data "/t".data).1 ("/t".data ++ tmpSuffix) = none) :=
  ⟨by decide,
    (claim_C3_binary_replace_amended ⟨true, true, true, true, true, true, true, []⟩
        [("/s".data, ⟨[118, 50], 493, false, true⟩), ("/t".data, ⟨[118, 49], 420, false, true⟩)]
        "/s".data "/t".data).2.2.2 (by decide)⟩

/-! ### Shape lemmas for SHA-256 (a digest is always 32 bytes) -/

theorem sha256round_length (st : List Nat) (k w : Nat) :
    (sha256round st k w).length = st.length := by
  unfold sha256round
  split <;> rfl

theorem foldl_round_length (l : List (Nat × Nat)) (st : List Nat) :
    (l.foldl (fun st kw => sha256round st kw.1 kw.2) st).length = st.length := by
  induction l generalizing st with
  | nil => rfl
  | cons kw l ih => rw [List.foldl_cons, ih, sha256round_length]

theorem sha256chunk_length (h8 : List Nat) (c : List Nat) :
    (sha256chunk h8 c).length = h8.length := by
  unfold sha256chunk
  rw [List.length_map, List.length_zip, foldl_round_length]
  exact Nat.min_self _

theorem foldl_chunk_length (cs : List (List Nat)) (h8 : List Nat) :
    (cs.foldl sha256chunk h8).length = h8.length := by
  induction cs generalizing h8 with
  | nil => rfl
  | cons c cs ih => rw [List.foldl_cons, ih, sha256chunk_length]

theorem flatMap_wordToBytes_length (l : List Nat) :
    (l.flatMap wordToBytes).length = 4 * l.length := by
  induction l with
  | nil => rfl
  | cons a l ih =>
    rw [List.flatMap_cons, List.length_append, ih, List.length_cons]
    simp [wordToBytes]
    omega

theorem sha256Bytes_length (msg : List Nat) : (sha256Bytes msg).length = 32 := by
  unfold sha256Bytes
  rw [flatMap_wordToBytes_length, foldl_chunk_length]
  rfl

theorem hexEncode_length (bs : List Nat) : (hexEncode bs).length = 2 * bs.length := by
  induction bs with
  | nil => rfl
  | cons b bs ih =>
    rw [hexEncode, List.flatMap_cons, List.length_append, ← hexEncode, ih, List.length_cons]
    simp
    omega

theorem toLowerStr_length (s : GoStr) : (toLowerStr s).length = s.length :=
  List.length_map s toLowerChar

/-- C8: `VerifySHA256` answers `(false, nil)` on a digest mismatch (after
trimming and lowercasing the expected value); an error is returned only
when the file is missing, unreadable or a directory — never on mismatch. -/
theorem claim_C8_verify_mismatch_not_error (fs : FsMap) (path : Path) (expected : GoStr) :
    (∀ e : FsEntry, fsGet fs path = some e → e.readable = true → e.isDir = false →
      toLowerStr (hexEncode (sha256Bytes e.content)) ≠ toLowerStr (trimSpace expected) →
      VerifySHA256 fs path expected = .ok false) ∧
    (∀ er, VerifySHA256 fs path expected = .error er →
      fsGet fs path = none ∨
        ∃ e, fsGet fs path = some e ∧ (e.readable = false ∨ e.isDir = true)) := by
  constructor
  · intro e he hr hd hne
    simp only [VerifySHA256, he, hr, hd, Bool.not_true, Bool.false_eq_true, if_false,
      Bool.false_eq_true]
    simp only [Except.ok.injEq]
    exact beq_eq_false_iff_ne.2 hne
  · intro er her
    rcases hf : fsGet fs path with _ | e
    · exact Or.inl rfl
    · refine Or.inr ⟨e, rfl, ?_⟩
      simp only [VerifySHA256, hf] at her
      by_cases hr : e.readable = true
      · by_cases hd : e.isDir = true
        · exact Or.inr hd
        · rw [Bool.not_eq_true] at hd
          simp [hr, hd] at her
      · rw [Bool.not_eq_true] at hr
        exact Or.inl hr

theorem claim_C8_verify_mismatch_not_error_witness :
    fsGet [("/f".data, (⟨[], 420, false, true⟩ : FsEntry))] "/f".data =
      some ⟨[], 420, false, true⟩ ∧
    VerifySHA256 [("/f".data, ⟨[], 420, false, true⟩)] "/f".data "zz".data = .ok false := by
  have hne : toLowerStr (hexEncode (sha256Bytes ([] : List Nat))) ≠
      toLowerStr (trimSpace "zz".data) := by
    intro h
    have hlen := congrArg List.length h
    rw [toLowerStr_length, hexEncode_length, sha256Bytes_length, toLowerStr_length] at hlen
    have h2 : (trimSpace "zz".data).length = 2 := by decide
    omega
  exact ⟨by decide,
    (claim_C8_verify_mismatch_not_error [("/f".data, ⟨[], 420, false, true⟩)] "/f".data
        "zz".data).1 ⟨[], 420, false, true⟩ (by decide) rfl rfl hne⟩

theorem takeWhile_until_colon (alg expected : GoStr) (h : ':' ∉ alg) :
    (alg ++ ':' :: expected).takeWhile (fun c => c != ':') = alg := by
  induction alg with
  | nil => simp [List.takeWhile_cons]
  | cons c cs ih =>
    rw [List.mem_cons, not_or] at h
    have hc : (c != ':') = true := by
      simp only [bne_iff_ne, ne_eq]
      exact fun hcc => h.1 hcc.symm
    rw [List.cons_append, List.takeWhile_cons, hc]
    rw [ih h.2]
    simp

theorem dropWhile_until_colon (alg expected : GoStr) (h : ':' ∉ alg) :
    (alg ++ ':' :: expected).dropWhile (fun c => c != ':') = ':' :: expected := by
  induction alg with
  | nil => simp [List.dropWhile_cons]
  | cons c cs ih =>
    rw [List.mem_cons, not_or] at h
    have hc : (c != ':') = true := by
      simp only [bne_iff_ne, ne_eq]
      exact fun hcc => h.1 hcc.symm
    rw [List.cons_append, List.dropWhile_cons, hc]
    exact ih h.2

theorem splitColon_prefix (alg expected : GoStr) (h : ':' ∉ alg) :
    splitColon (alg ++ ':' :: expected) = (alg, expected) := by
  unfold splitColon
  rw [if_pos (by simp), takeWhile_until_colon _ _ h, dropWhile_until_colon _ _ h]
  rfl

theorem digitChar_hexLower (n : Nat) (h : n < 16) :
    (Nat.digitChar n).toNat < 65 ∨ 97 ≤ (Nat.digitChar n).toNat := by
  interval_cases n <;> decide

/-- `hex.EncodeToString` emits only `0-9` and lowercase `a-f`; in
particular no character in the 65–90 (uppercase) range. -/
theorem hexEncode_lower (bs : List Nat) :
    ∀ c ∈ hexEncode bs, c.toNat < 65 ∨ 97 ≤ c.toNat := by
  intro c hc
  rw [hexEncode, List.mem_flatMap] at hc
  obtain ⟨b, _, hb⟩ := hc
  rw [List.mem_cons, List.mem_singleton] at hb
  rcases hb with rfl | rfl
  · exact digitChar_hexLower _ (Nat.mod_lt _ (by norm_num))
  · exact digitChar_hexLower _ (Nat.mod_lt _ (by norm_num))

theorem verifyChecksum_spine (H : Hashers) (fs : FsMap) (path : Path) (e : FsEntry)
    (alg expected : GoStr) (he : fsGet fs path = some e) (hr : e.readable = true)
    (hcolon : ':' ∉ alg) (halg : alg ≠ []) (hexp : expected ≠ []) :
    verifyChecksum H fs path (alg ++ ':' :: expected) =
      (if alg = "sha256".data then
        (if e.isDir then some .readFailed
         else if hexEncode (H.hsha256 e.content) != expected then some .mismatch else none)
      else if alg = "sha1".data then
        (if e.isDir then some .readFailed
         else if hexEncode (H.hsha1 e.content) != expected then some .mismatch else none)
      else if alg = "md5".data then
        (if e.isDir then some .readFailed
         else if hexEncode (H.hmd5 e.content) != expected then some .mismatch else none)
      else some .unsupportedAlgorithm) := by
  simp only [verifyChecksum, he, hr, Bool.not_true, Bool.false_eq_true, if_false,
    splitColon_prefix _ _ hcolon]
  rw [if_neg (by simp [halg, hexp])]

theorem verifyChecksum_empty_expected (H : Hashers) (fs : FsMap) (path : Path)
    (alg : GoStr) (hcolon : ':' ∉ alg) :
    verifyChecksum H fs path (alg ++ ':' :: []) ≠ none := by
  rcases hf : fsGet fs path with _ | e
  · simp [verifyChecksum, hf]
  · by_cases hr : e.readable = true
    · have hsp : ∀ x : GoStr, splitColon (alg ++ ':' :: x) = (alg, x) :=
        fun x => splitColon_prefix alg x hcolon
      simp [verifyChecksum, hf, hr, hsp]
    · rw [Bool.not_eq_true] at hr
      simp [verifyChecksum, hf, hr]

/-- Counterexample to C7: `verifyChecksum` compares the expected hex digest
case-sensitively, so a digest accepted in lowercase is rejected when
uppercased.  The hash functions are instantiated with a function whose
digest hex-encodes to 64 lowercase characters. -/
theorem claim_C7_counterexample :
    verifyChecksum ⟨fun _ => List.replicate 32 171, fun _ => List.replicate 32 171,
        fun _ => List.replicate 32 171⟩
      [("/f".data, ⟨[116], 420, false, true⟩)] "/f".data
      "sha256:abababababababababababababababababababababababababababababababab".data
      = none ∧
    verifyChecksum ⟨fun _ => List.replicate 32 171, fun _ => List.replicate 32 171,
        fun _ => List.replicate 32 171⟩
      [("/f".data, ⟨[116], 420, false, true⟩)] "/f".data
      "sha256:ABABABABABABABABABABABABABABABABABABABABABABABABABABABABABABABAB".data
      = some .mismatch := by
  constructor <;> decide

/-- C7 (amended): for every readable file and every supported algorithm,
verification succeeds iff the expected digest equals the computed
lowercase hex encoding exactly (case-sensitively); as the encoding never
contains uppercase letters, an expected digest with any uppercase
character always fails. -/
theorem claim_C7_checksum_case_amended (H : Hashers) (fs : FsMap) (path : Path)
    (e : FsEntry) (expected : GoStr) (alg : GoStr) (digest : List Nat)
    (he : fsGet fs path = some e) (hr : e.readable = true) (hd : e.isDir = false)
    (harm : (alg = "sha256".data ∧ digest = H.hsha256 e.content) ∨
            (alg = "sha1".data ∧ digest = H.hsha1 e.content) ∨
            (alg = "md5".data ∧ digest = H.hmd5 e.content)) :
    (verifyChecksum H fs path (alg ++ ':' :: expected) = none ↔
      expected ≠ [] ∧ expected = hexEncode digest) ∧
    (∀ c ∈ expected, 65 ≤ c.toNat → c.toNat ≤ 90 →
      verifyChecksum H fs path (alg ++ ':' :: expected) ≠ none) := by
  have hiff : verifyChecksum H fs path (alg ++ ':' :: expected) = none ↔
      expected ≠ [] ∧ expected = hexEncode digest := by
    constructor
    · intro hv
      by_cases hexp : expected = []
      · subst hexp
        rcases harm with ⟨ha, _⟩ | ⟨ha, _⟩ | ⟨ha, _⟩
        · subst ha
          exact absurd hv (verifyChecksum_empty_expected H fs path "sha256".data (by decide))
        · subst ha
          exact absurd hv (verifyChecksum_empty_expected H fs path "sha1".data (by decide))
        · subst ha
          exact absurd hv (verifyChecksum_empty_expected H fs path "md5".data (by decide))
      · refine ⟨hexp, ?_⟩
        rcases harm with ⟨ha, hdg⟩ | ⟨ha, hdg⟩ | ⟨ha, hdg⟩ <;> subst ha <;> subst hdg
        · rw [verifyChecksum_spine H fs path e _ expected he hr (by decide) (by decide) hexp,
            if_pos rfl] at hv
          simp only [hd, Bool.false_eq_true, if_false] at hv
          by_cases hx : hexEncode (H.hsha256 e.content) = expected
          · exact hx.symm
          · simp [bne_iff_ne, hx] at hv
        · rw [verifyChecksum_spine H fs path e _ expected he hr (by decide) (by decide) hexp,
            if_neg (by decide), if_pos rfl] at hv
          simp only [hd, Bool.false_eq_true, if_false] at hv
          by_cases hx : hexEncode (H.hsha1 e.content) = expected
          · exact hx.symm
          · simp [bne_iff_ne, hx] at hv
        · rw [verifyChecksum_spine H fs path e _ expected he hr (by decide) (by decide) hexp,
            if_neg (by decide), if_neg (by decide), if_pos rfl] at hv
          simp only [hd, Bool.false_eq_true, if_false] at hv
          by_cases hx : hexEncode (H.hmd5 e.content) = expected
          · exact hx.symm
          · simp [bne_iff_ne, hx] at hv
    · rintro ⟨hexp, rfl⟩
      rcases harm with ⟨ha, hdg⟩ | ⟨ha, hdg⟩ | ⟨ha, hdg⟩ <;> subst ha <;> subst hdg
      · rw [verifyChecksum_spine H fs path e _ _ he hr (by decide) (by decide) hexp,
          if_pos rfl]
        simp [hd]
      · rw [verifyChecksum_spine H fs path e _ _ he hr (by decide) (by decide) hexp,
          if_neg (by decide), if_pos rfl]
        simp [hd]
      · rw [verifyChecksum_spine H fs path e _ _ he hr (by decide) (by decide) hexp,
          if_neg (by decide), if_neg (by decide), if_pos rfl]
        simp [hd]
  refine ⟨hiff, ?_⟩
  intro c hc h65 h90 hv
  obtain ⟨_, hx⟩ := hiff.1 hv
  subst hx
  rcases hexEncode_lower digest c hc with h | h <;> omega

theorem claim_C7_checksum_case_amended_witness :
    verifyChecksum ⟨fun _ => [171, 205], fun _ => [171, 205], fun _ => [171, 205]⟩
      [("/f".data, ⟨[116], 420, false, true⟩)] "/f".data "sha1:abcd".data = none ∧
    verifyChecksum ⟨fun _ => [171, 205], fun _ => [171, 205], fun _ => [171, 205]⟩
      [("/f".data, ⟨[116], 420, false, true⟩)] "/f".data "sha1:aBcd".data ≠ none := by
  have h := claim_C7_checksum_case_amended
    ⟨fun _ => [171, 205], fun _ => [171, 205], fun _ => [171, 205]⟩
    [("/f".data, ⟨[116], 420, false, true⟩)] "/f".data ⟨[116], 420, false, true⟩
    "abcd".data "sha1".data [171, 205] (by decide) rfl rfl (Or.inr (Or.inl ⟨rfl, rfl⟩))
  have h2 := claim_C7_checksum_case_amended
    ⟨fun _ => [171, 205], fun _ => [171, 205], fun _ => [171, 205]⟩
    [("/f".data, ⟨[116], 420, false, true⟩)] "/f".data ⟨[116], 420, false, true⟩
    "aBcd".data "sha1".data [171, 205] (by decide) rfl rfl (Or.inr (Or.inl ⟨rfl, rfl⟩))
  refine ⟨h.1.2 ⟨by decide, by decide⟩, h2.2 'B' (by decide) (by decide) (by decide)⟩

theorem preLt_irrefl (p : GoStr) : ¬ preLt p p := by
  rintro (⟨hne, he⟩ | ⟨_, _, hlt⟩)
  · exact hne he
  · simp [strLtb_irrefl] at hlt

theorem strLtb_trans : ∀ {a b c : GoStr}, strLtb a b = true → strLtb b c = true →
    strLtb a c = true
  | [], [], _, h, _ => by simp [strLtb] at h
  | [], _ :: _, [], _, h => by simp [strLtb] at h
  | [], _ :: _, _ :: _, _, _ => rfl
  | _ :: _, [], _, h, _ => by simp [strLtb] at h
  | _ :: _, _ :: _, [], _, h => by simp [strLtb] at h
  | a :: as, b :: bs, c :: cs, h1, h2 => by
    simp only [strLtb] at h1 h2 ⊢
    rcases lt_trichotomy a b with hab | hab | hab
    · rcases lt_trichotomy b c with hbc | hbc | hbc
      · simp [lt_trans hab hbc]
      · subst hbc
        simp [hab]
      · simp [not_lt.2 (le_of_lt hbc), hbc] at h2
    · subst hab
      simp [lt_irrefl] at h1
      rcases lt_trichotomy a c with hac | hac | hac
      · simp [hac]
      · subst hac
        simp [lt_irrefl] at h2 ⊢
        exact strLtb_trans h1 h2
      · simp [not_lt.2 (le_of_lt hac), hac] at h2
    · simp [not_lt.2 (le_of_lt hab), hab] at h1

theorem preLt_trans {p q r : GoStr} (h1 : preLt p q) (h2 : preLt q r) : preLt p r := by
  rcases h1 with ⟨hp, hq⟩ | ⟨hp, hq, hlt⟩
  · rcases h2 with ⟨hq', _⟩ | ⟨hq', _, _⟩ <;> exact absurd hq hq'
  · rcases h2 with ⟨_, hr⟩ | ⟨_, hr, hlt'⟩
    · exact Or.inl ⟨hp, hr⟩
    · exact Or.inr ⟨hp, hr, strLtb_trans hlt hlt'⟩

theorem ltV_irrefl (v : Version) : ¬ ltV v v := by
  intro h
  unfold ltV at h
  rcases h with h | ⟨_, h | ⟨_, h | ⟨_, h⟩⟩⟩
  · omega
  · omega
  · omega
  · exact preLt_irrefl _ h

theorem ltV_trans {a b c : Version} (h1 : ltV a b) (h2 : ltV b c) : ltV a c := by
  unfold ltV at h1 h2 ⊢
  rcases h1 with h1 | ⟨e1, h1 | ⟨f1, h1 | ⟨g1, h1⟩⟩⟩ <;>
    rcases h2 with h2 | ⟨e2, h2 | ⟨f2, h2 | ⟨g2, h2⟩⟩⟩
  · exact Or.inl (by omega)
  · exact Or.inl (by omega)
  · exact Or.inl (by omega)
  · exact Or.inl (by omega)
  · exact Or.inl (by omega)
  · exact Or.inr ⟨by omega, Or.inl (by omega)⟩
  · exact Or.inr ⟨by omega, Or.inl (by omega)⟩
  · exact Or.inr ⟨by omega, Or.inl (by omega)⟩
  · exact Or.inl (by omega)
  · exact Or.inr ⟨by omega, Or.inl (by omega)⟩
  · exact Or.inr ⟨by omega, Or.inr ⟨by omega, Or.inl (by omega)⟩⟩
  · exact Or.inr ⟨by omega, Or.inr ⟨by omega, Or.inl (by omega)⟩⟩
  · exact Or.inl (by omega)
  · exact Or.inr ⟨by omega, Or.inl (by omega)⟩
  · exact Or.inr ⟨by omega, Or.inr ⟨by omega, Or.inl (by omega)⟩⟩
  · exact Or.inr ⟨by omega, Or.inr ⟨by omega, Or.inr ⟨by omega, preLt_trans h1 h2⟩⟩⟩

theorem Compare_vals (a b : Version) :
    a.Compare b = -1 ∨ a.Compare b = 0 ∨ a.Compare b = 1 := by
  unfold Version.Compare
  split_ifs <;> simp

/-- `Compare a b = 1` exactly when `b` is strictly below `a` in the
lexicographic Major/Minor/Patch/PreRelease order. -/
theorem compare_eq_one_iff (a b : Version) : a.Compare b = 1 ↔ ltV b a := by
  unfold Version.Compare ltV preLt
  by_cases hM : a.Major = b.Major
  · rw [if_neg (not_not_intro hM)]
    by_cases hm : a.Minor = b.Minor
    · rw [if_neg (not_not_intro hm)]
      by_cases hp : a.Patch = b.Patch
      · rw [if_neg (not_not_intro hp)]
        by_cases h7 : a.PreRelease = [] ∧ b.PreRelease ≠ []
        · rw [if_pos h7]
          exact iff_of_true rfl (Or.inr ⟨hM.symm, Or.inr ⟨hm.symm, Or.inr ⟨hp.symm,
            Or.inl ⟨h7.2, h7.1⟩⟩⟩⟩)
        · rw [if_neg h7]
          by_cases h8 : a.PreRelease ≠ [] ∧ b.PreRelease = []
          · rw [if_pos h8]
            refine iff_of_false (by norm_num) ?_
            rintro (hc | ⟨e, hc | ⟨f, hc | ⟨g, hpre⟩⟩⟩)
            · omega
            · omega
            · omega
            · rcases hpre with ⟨hne, hemp⟩ | ⟨hne, _, _⟩
              · exact h8.1 hemp
              · exact hne h8.2
          · rw [if_neg h8]
            by_cases h9 : a.PreRelease = b.PreRelease
            · rw [if_neg (not_not_intro h9)]
              refine iff_of_false (by norm_num) ?_
              rintro (hc | ⟨e, hc | ⟨f, hc | ⟨g, hpre⟩⟩⟩)
              · omega
              · omega
              · omega
              · rcases hpre with ⟨hne, hemp⟩ | ⟨hne, hne', hlt⟩
                · exact hne (by rw [← h9]; exact hemp)
                · rw [← h9] at hlt
                  simp [strLtb_irrefl] at hlt
            · rw [if_pos h9]
              have hane : a.PreRelease ≠ [] :=
                fun ha => h7 ⟨ha, fun hb => h9 (ha.trans hb.symm)⟩
              have hbne : b.PreRelease ≠ [] :=
                fun hb => h8 ⟨fun ha => h9 (ha.trans hb.symm), hb⟩
              by_cases h10 : strLtb b.PreRelease a.PreRelease = true
              · rw [if_pos h10]
                exact iff_of_true rfl (Or.inr ⟨hM.symm, Or.inr ⟨hm.symm, Or.inr ⟨hp.symm,
                  Or.inr ⟨hbne, hane, h10⟩⟩⟩⟩)
              · rw [if_neg h10]
                refine iff_of_false (by norm_num) ?_
                rintro (hc | ⟨e, hc | ⟨f, hc | ⟨g, hpre⟩⟩⟩)
                · omega
                · omega
                · omega
                · rcases hpre with ⟨hne, hemp⟩ | ⟨_, _, hlt⟩
                  · exact h7 ⟨hemp, hne⟩
                  · exact h10 hlt
      · rw [if_pos hp]
        by_cases h6 : b.Patch < a.Patch
        · rw [if_pos h6]
          exact iff_of_true rfl (Or.inr ⟨hM.symm, Or.inr ⟨hm.symm, Or.inl h6⟩⟩)
        · rw [if_neg h6]
          refine iff_of_false (by norm_num) ?_
          rintro (hc | ⟨e, hc | ⟨f, hc | ⟨g, hpre⟩⟩⟩) <;> omega
    · rw [if_pos hm]
      by_cases h4 : b.Minor < a.Minor
      · rw [if_pos h4]
        exact iff_of_true rfl (Or.inr ⟨hM.symm, Or.inl h4⟩)
      · rw [if_neg h4]
        refine iff_of_false (by norm_num) ?_
        rintro (hc | ⟨e, hc | ⟨f, hc | ⟨g, hpre⟩⟩⟩) <;> omega
  · rw [if_pos hM]
    by_cases h2 : b.Major < a.Major
    · rw [if_pos h2]
      exact iff_of_true rfl (Or.inl h2)
    · rw [if_neg h2]
      refine iff_of_false (by norm_num) ?_
      rintro (hc | ⟨e, hc | ⟨f, hc | ⟨g, hpre⟩⟩⟩) <;> omega

/-- C6: when the networked steps succeed, the release carries a non-empty
checksum, and verification of the downloaded content fails, Download
deletes the destination file and returns the checksum error: no corrupt
artifact remains at dest. -/
theorem claim_C6_download_deletes_corrupt (H : Hashers) (env : DlEnv) (fs : FsMap)
    (release : Release) (dest : Path) (ve : VerifyErr)
    (hurl : release.DownloadURL ≠ []) (hreq : env.requestOk = true)
    (hnet : env.networkOk = true) (hst : env.statusCode = 200) (hmk : env.mkdirOk = true)
    (hcr : env.createOk = true) (hcp : env.copyOk = true) (hck : release.Checksum ≠ [])
    (hver : verifyChecksum H (fsSet fs dest ⟨env.body, 420, false, true⟩) dest
      release.Checksum = some ve) :
    Download H env fs release dest =
      (fsErase (fsSet fs dest ⟨env.body, 420, false, true⟩) dest,
        some (.checksumFailed ve)) ∧
    fsGet (Download H env fs release dest).1 dest = none := by
  have hmain : Download H env fs release dest =
      (fsErase (fsSet fs dest ⟨env.body, 420, false, true⟩) dest,
        some (.checksumFailed ve)) := by
    simp [Download, hurl, hreq, hnet, hst, hmk, hcr, hcp, hck, hver]
  refine ⟨hmain, ?_⟩
  rw [hmain, fsGet_erase, if_pos rfl]

theorem claim_C6_download_deletes_corrupt_witness :
    Download ⟨fun _ => [171, 205], fun _ => [171, 205], fun _ => [171, 205]⟩
      ⟨true, true, 200, true, true, true, [116], []⟩ []
      ⟨"1.0.0".data, "http://x/f".data, "sha256:00".data, 0, "f".data, 0⟩ "/d/f".data =
      (fsErase (fsSet [] "/d/f".data ⟨[116], 420, false, true⟩) "/d/f".data,
        some (.checksumFailed .mismatch)) ∧
    fsGet (Download ⟨fun _ => [171, 205], fun _ => [171, 205], fun _ => [171, 205]⟩
      ⟨true, true, 200, true, true, true, [116], []⟩ []
      ⟨"1.0.0".data, "http://x/f".data, "sha256:00".data, 0, "f".data, 0⟩ "/d/f".data).1
      "/d/f".data = none :=
  claim_C6_download_deletes_corrupt
    ⟨fun _ => [171, 205], fun _ => [171, 205], fun _ => [171, 205]⟩
    ⟨true, true, 200, true, true, true, [116], []⟩ []
    ⟨"1.0.0".data, "http://x/f".data, "sha256:00".data, 0, "f".data, 0⟩ "/d/f".data
    .mismatch (by decide) rfl rfl rfl rfl rfl rfl (by decide) (by decide)

/-! ### C4: `GetLatestRelease` scan -/

theorem IsNewer_parsed {s t : GoStr} {vs vt : Version}
    (hs : Parse s = some vs) (ht : Parse t = some vt) :
    IsNewer s t = some (decide (0 < vs.Compare vt)) := by
  simp [IsNewer, CompareStrings, hs, ht]

theorem pickStep_parsed (l r : HttpRelease) (vl vr : Version)
    (hl : Parse l.Version = some vl) (hr : Parse r.Version = some vr) :
    pickStep (some l) r = if 0 < vr.Compare vl then some r else some l := by
  simp only [pickStep, IsNewer_parsed hr hl]
  by_cases h : 0 < vr.Compare vl
  · simp [h]
  · simp [h]

/-- The scan always ends with a candidate drawn from the seed or the
list, whatever parses: "no valid release found" is unreachable. -/
theorem foldl_pickStep_mem (rs : List HttpRelease) (l0 : HttpRelease) :
    ∃ l, rs.foldl pickStep (some l0) = some l ∧ (l = l0 ∨ l ∈ rs) := by
  induction rs generalizing l0 with
  | nil => exact ⟨l0, rfl, Or.inl rfl⟩
  | cons r rs ih =>
    rw [List.foldl_cons]
    have hcases : pickStep (some l0) r = some l0 ∨ pickStep (some l0) r = some r := by
      rcases h : IsNewer r.Version l0.Version with _ | b
      · exact Or.inl (by simp [pickStep, h])
      · cases b
        · exact Or.inl (by simp [pickStep, h])
        · exact Or.inr (by simp [pickStep, h])
    rcases hcases with h | h <;> rw [h]
    · obtain ⟨l, hf, hm⟩ := ih l0
      refine ⟨l, hf, ?_⟩
      rcases hm with rfl | hm
      · exact Or.inl rfl
      · exact Or.inr (List.mem_cons_of_mem _ hm)
    · obtain ⟨l, hf, hm⟩ := ih r
      refine ⟨l, hf, Or.inr ?_⟩
      rcases hm with rfl | hm
      · exact List.mem_cons_self _ _
      · exact List.mem_cons_of_mem _ hm

/-- Fold invariant when every remaining version parses: the candidate is
the seed or a list entry, never decreases, and no list entry is strictly
newer than it. -/
theorem foldl_pickStep_max (rs : List HttpRelease) (l0 : HttpRelease) (v0 : Version)
    (h0 : Parse l0.Version = some v0)
    (hall : ∀ r ∈ rs, Parse r.Version ≠ none) :
    ∃ l vl, rs.foldl pickStep (some l0) = some l ∧ Parse l.Version = some vl ∧
      (l = l0 ∨ l ∈ rs) ∧ (vl = v0 ∨ ltV v0 vl) ∧
      ∀ r ∈ rs, ∀ vr, Parse r.Version = some vr → ¬ ltV vl vr := by
  induction rs generalizing l0 v0 with
  | nil => exact ⟨l0, v0, rfl, h0, Or.inl rfl, Or.inl rfl, by simp⟩
  | cons r rs ih =>
    obtain ⟨vr, hvr⟩ := Option.ne_none_iff_exists'.mp (hall r (List.mem_cons_self r rs))
    have hall' : ∀ x ∈ rs, Parse x.Version ≠ none :=
      fun x hx => hall x (List.mem_cons_of_mem _ hx)
    rw [List.foldl_cons, pickStep_parsed l0 r v0 vr h0 hvr]
    by_cases hlt : 0 < vr.Compare v0
    · rw [if_pos hlt]
      have hltV : ltV v0 vr := by
        have h1 : vr.Compare v0 = 1 := by
          rcases Compare_vals vr v0 with h | h | h <;> omega
        exact (compare_eq_one_iff vr v0).1 h1
      obtain ⟨l, vl, hfold, hvl, hmem, hge, hbound⟩ := ih r vr hvr hall'
      refine ⟨l, vl, hfold, hvl, ?_, ?_, ?_⟩
      · rcases hmem with rfl | hm
        · exact Or.inr (List.mem_cons_self _ _)
        · exact Or.inr (List.mem_cons_of_mem _ hm)
      · rcases hge with rfl | hg
        · exact Or.inr hltV
        · exact Or.inr (ltV_trans hltV hg)
      · intro x hx vx hvx
        rcases List.mem_cons.1 hx with rfl | hm
        · have hvv : vr = vx := Option.some_inj.mp (hvr.symm.trans hvx)
          subst hvv
          rcases hge with rfl | hg
          · exact ltV_irrefl _
          · exact fun hc => ltV_irrefl _ (ltV_trans hc hg)
        · exact hbound x hm vx hvx
    · rw [if_neg hlt]
      have hnot : ¬ ltV v0 vr := by
        intro hc
        have h1 := (compare_eq_one_iff vr v0).2 hc
        omega
      obtain ⟨l, vl, hfold, hvl, hmem, hge, hbound⟩ := ih l0 v0 h0 hall'
      refine ⟨l, vl, hfold, hvl, ?_, hge, ?_⟩
      · rcases hmem with rfl | hm
        · exact Or.inl rfl
        · exact Or.inr (List.mem_cons_of_mem _ hm)
      · intro x hx vx hvx
        rcases List.mem_cons.1 hx with rfl | hm
        · have hvv : vr = vx := Option.some_inj.mp (hvr.symm.trans hvx)
          subst hvv
          intro hc
          rcases hge with rfl | hg
          · exact hnot hc
          · exact hnot (ltV_trans hg hc)
        · exact hbound x hm vx hvx

/-- Counterexample to C4: the scan seeds its candidate with the FIRST
entry before any parse check, and `IsNewer` errors keep the candidate, so
an unparsable first entry is returned even though a parsable entry
follows — the unparsable entry is neither skipped nor reported. -/
theorem claim_C4_counterexample :
    GetLatestRelease [⟨"garbage".data, "http://x/a".data, [], [], []⟩,
        ⟨"1.0.0".data, "http://x/b".data, [], [], []⟩] =
      .ok (convertHTTPRelease ⟨"garbage".data, "http://x/a".data, [], [], []⟩) ∧
    Parse "garbage".data = none ∧ Parse "1.0.0".data ≠ none :=
  ⟨rfl, rfl, by decide⟩

/-- C4 (amended): an empty array is a "no releases found" error; a
non-empty array always yields a converted entry of the array (the "no
valid release" error is unreachable, and an unparsable first entry can be
returned as-is); when every version parses, the returned entry is maximal
under the Version comparator — no entry is strictly newer — and the
manifest ["2.0.0","3.0.0","1.0.0"] yields the "3.0.0" entry. -/
theorem claim_C4_get_latest_release_amended (rs : List HttpRelease) :
    (GetLatestRelease [] = .error .noReleasesFound) ∧
    (rs ≠ [] → ∃ l, l ∈ rs ∧ GetLatestRelease rs = .ok (convertHTTPRelease l)) ∧
    ((∀ r ∈ rs, Parse r.Version ≠ none) → rs ≠ [] →
      ∃ l, l ∈ rs ∧ GetLatestRelease rs = .ok (convertHTTPRelease l) ∧
        ∀ r ∈ rs, IsNewer r.Version l.Version = some false) ∧
    (GetLatestRelease [⟨"2.0.0".data, "http://x/a2".data, [], [], []⟩,
        ⟨"3.0.0".data, "http://x/a3".data, [], [], []⟩,
        ⟨"1.0.0".data, "http://x/a1".data, [], [], []⟩] =
      .ok (convertHTTPRelease ⟨"3.0.0".data, "http://x/a3".data, [], [], []⟩)) := by
  refine ⟨rfl, ?_, ?_, rfl⟩
  · intro hne
    obtain ⟨r, rs', rfl⟩ : ∃ r rs', rs = r :: rs' := by
      cases rs with
      | nil => exact absurd rfl hne
      | cons r rs' => exact ⟨r, rs', rfl⟩
    obtain ⟨l, hf, hm⟩ := foldl_pickStep_mem rs' r
    refine ⟨l, ?_, ?_⟩
    · rcases hm with rfl | hm
      · exact List.mem_cons_self _ _
      · exact List.mem_cons_of_mem _ hm
    · unfold GetLatestRelease pickLatest
      rw [if_neg (by simp), List.foldl_cons]
      have h0 : pickStep none r = some r := rfl
      rw [h0, hf]
  · intro hall hne
    obtain ⟨r, rs', rfl⟩ : ∃ r rs', rs = r :: rs' := by
      cases rs with
      | nil => exact absurd rfl hne
      | cons r rs' => exact ⟨r, rs', rfl⟩
    obtain ⟨vr, hvr⟩ := Option.ne_none_iff_exists'.mp (hall r (List.mem_cons_self r rs'))
    have hall' : ∀ x ∈ rs', Parse x.Version ≠ none :=
      fun x hx => hall x (List.mem_cons_of_mem _ hx)
    obtain ⟨l, vl, hfold, hvl, hmem, hge, hbound⟩ := foldl_pickStep_max rs' r vr hvr hall'
    refine ⟨l, ?_, ?_, ?_⟩
    · rcases hmem with rfl | hm
      · exact List.mem_cons_self _ _
      · exact List.mem_cons_of_mem _ hm
    · unfold GetLatestRelease pickLatest
      rw [if_neg (by simp), List.foldl_cons]
      have h0 : pickStep none r = some r := rfl
      rw [h0, hfold]
    · intro x hx
      obtain ⟨vx, hvx⟩ := Option.ne_none_iff_exists'.mp (hall x hx)
      rw [IsNewer_parsed hvx hvl]
      have hnot : ¬ ltV vl vx := by
        rcases List.mem_cons.1 hx with rfl | hm
        · have hvv : vr = vx := Option.some_inj.mp (hvr.symm.trans hvx)
          subst hvv
          rcases hge with rfl | hg
          · exact ltV_irrefl _
          · exact fun hc => ltV_irrefl _ (ltV_trans hc hg)
        · exact hbound x hm vx hvx
      have hle : ¬ (0 < vx.Compare vl) := by
        intro h
        have h1 : vx.Compare vl = 1 := by
          rcases Compare_vals vx vl with h' | h' | h' <;> omega
        exact hnot ((compare_eq_one_iff vx vl).1 h1)
      simp [hle]

theorem claim_C4_get_latest_release_amended_witness :
    ∃ l, l ∈ [(⟨"2.0.0".data, "http://x/a2".data, [], [], []⟩ : HttpRelease),
        ⟨"3.0.0".data, "http://x/a3".data, [], [], []⟩,
        ⟨"1.0.0".data, "http://x/a1".data, [], [], []⟩] ∧
      GetLatestRelease [⟨"2.0.0".data, "http://x/a2".data, [], [], []⟩,
        ⟨"3.0.0".data, "http://x/a3".data, [], [], []⟩,
        ⟨"1.0.0".data, "http://x/a1".data, [], [], []⟩] = .ok (convertHTTPRelease l) ∧
      ∀ r ∈ [(⟨"2.0.0".data, "http://x/a2".data, [], [], []⟩ : HttpRelease),
        ⟨"3.0.0".data, "http://x/a3".data, [], [], []⟩,
        ⟨"1.0.0".data, "http://x/a1".data, [], [], []⟩],
        IsNewer r.Version l.Version = some false :=
  (claim_C4_get_latest_release_amended
      [⟨"2.0.0".data, "http://x/a2".data, [], [], []⟩,
        ⟨"3.0.0".data, "http://x/a3".data, [], [], []⟩,
        ⟨"1.0.0".data, "http://x/a1".data, [], [], []⟩]).2.2.1
    (by decide) (by decide)

/-- C5: every successful GitHub conversion yields an empty Checksum: the
converter has no digest handling at all, so a "sha256:"-prefixed asset
digest never becomes Release.Checksum. -/
theorem claim_C5_github_checksum_empty (g : GitHubRepository) (gh : GithubRelease)
    (r : Release) (h : convertGitHubRelease g gh = .ok r) : r.Checksum = [] := by
  unfold convertGitHubRelease at h
  split at h
  · exact absurd h (by simp)
  · split at h
    · exact absurd h (by simp)
    · rw [Except.ok.injEq] at h
      rw [← h]

theorem claim_C5_github_checksum_empty_witness :
    convertGitHubRelease ⟨"owner".data, "repo".data, [], []⟩
      ⟨"v1.0.0".data, "r1".data, 0,
        [⟨123, "test-binary".data, "https://example.com/binary".data⟩]⟩ =
      .ok ⟨"v1.0.0".data, "https://example.com/binary".data, [], 0,
        "test-binary".data, 123⟩ ∧
    (⟨"v1.0.0".data, "https://example.com/binary".data, [], 0,
      "test-binary".data, 123⟩ : Release).Checksum = [] :=
  ⟨rfl, claim_C5_github_checksum_empty ⟨"owner".data, "repo".data, [], []⟩
    ⟨"v1.0.0".data, "r1".data, 0,
      [⟨123, "test-binary".data, "https://example.com/binary".data⟩]⟩ _ rfl⟩

end Guppy
